import Mathlib

/-!
# Verification of the bencode codec (trim21/bencode-rs)

The repository exposes two pure operations, `encode : Value → bytes` and
`decode : bytes → Value`, implementing the bencode serialization format.
The codec core itself is a native extension that is not part of the visible
Python sources (only wrappers and tests are), so the codec is modelled here
from the specification: a closed value model `BObj`, a canonical encoder,
and a strictly validating recursive-descent decoder with an explicit
bounded nesting-depth counter, a `decode_keys` key-selector option and the
error taxonomy of the spec (`InvalidInteger`, `InvalidLengthPrefix`,
`UnknownTypeTag`, `NonByteStringDictKey`, `DuplicateDictKey`,
`TrailingData`, `NestingTooDeep`, `UnexpectedEndOfInput`;
encode side: `UnsupportedType`).

Bytes are modelled as `List Nat` (each entry an octet); host text strings
are carried by their UTF-8 byte sequence.
-/

namespace Bencode

/-- Raw byte sequences: the payload of bencode ByteStrings and the wire format. -/
abbrev Bytes := List Nat

/-- Modelled from the spec: the closed value model at the encode boundary.
The four bencode kinds (`int`, `bytes`, `list`, `dict`) plus the
host-native adapters: `str` is a host text string carried as its UTF-8
bytes, and `pynone` / `pybool` / `pyfloat` / `pyother` are the unsupported
host leaf kinds (None, booleans, floats, opaque objects) that the encoder
must reject. -/
inductive BObj where
  | int (n : Int)
  | bytes (b : Bytes)
  | str (s : Bytes)
  | list (xs : List BObj)
  | dict (es : List (BObj × BObj))
  | pynone
  | pybool (b : Bool)
  | pyfloat
  | pyother

/-- Fuel-indexed producer of the decimal ASCII digits of a natural number. -/
def natDigitsAux : Nat → Nat → Bytes
  | 0, _ => []
  | fuel + 1, n =>
    if n < 10 then [48 + n]
    else natDigitsAux fuel (n / 10) ++ [48 + n % 10]

/-- Minimal decimal ASCII representation of a natural number (no leading zero;
zero is the single digit `0`). -/
def natDigits (n : Nat) : Bytes := natDigitsAux (n + 1) n

/-- Minimal decimal ASCII representation of an integer: an optional `-`
(byte 45) followed by the digits of the absolute value; no `-0` form. -/
def intDigits : Int → Bytes
  | .ofNat n => natDigits n
  | .negSucc m => 45 :: natDigits (m + 1)

/-- Modelled from the spec: bencode integer encoding, `i` + minimal decimal + `e`. -/
def encInt (n : Int) : Bytes := 105 :: (intDigits n ++ [101])

/-- Modelled from the spec: bencode string encoding,
decimal byte length + `:` + the raw bytes. -/
def encBytes (b : Bytes) : Bytes := natDigits b.length ++ 58 :: b

/-- Strict byte-wise lexicographic order on raw byte sequences. -/
def bytesLt : Bytes → Bytes → Bool
  | _, [] => false
  | [], _ :: _ => true
  | a :: as, b :: bs => if a < b then true else if b < a then false else bytesLt as bs

/-- Insert one (raw key, payload) pair into a key-sorted list of pairs. -/
def insertEntry (p : Bytes × Bytes) : List (Bytes × Bytes) → List (Bytes × Bytes)
  | [] => [p]
  | q :: qs => if bytesLt q.1 p.1 then q :: insertEntry p qs else p :: q :: qs

/-- Insertion sort of (raw key, payload) pairs by ascending raw key bytes. -/
def sortEntries : List (Bytes × Bytes) → List (Bytes × Bytes)
  | [] => []
  | p :: ps => insertEntry p (sortEntries ps)

/-- Modelled from the spec: the encode-side failure, a type-error-class
rejection of any unsupported leaf or non-ByteString dict key. -/
inductive EncodeError where
  | unsupportedType
deriving DecidableEq

/-- Raw bytes of a dict key at the encode boundary: ByteString keys and
text keys (via UTF-8) are the only supported kinds. -/
def keyBytes : BObj → Except EncodeError Bytes
  | .bytes b => .ok b
  | .str s => .ok s
  | _ => .error .unsupportedType

/-- Concatenation of the emitted form of already-encoded dict entries:
each entry is the key's ByteString encoding followed by the value's encoding. -/
def entriesPayload : List (Bytes × Bytes) → Bytes
  | [] => []
  | (k, v) :: ps => encBytes k ++ v ++ entriesPayload ps

mutual
/-- Modelled from the spec: `encode` serializes a value tree into canonical
bencode bytes — integers minimally, strings length-prefixed, lists in order,
dict entries with keys sorted ascending by raw byte value independent of
insertion order — and fails with `EncodeError` on any unsupported leaf. -/
def encodeObj : BObj → Except EncodeError Bytes
  | .int n => .ok (encInt n)
  | .bytes b => .ok (encBytes b)
  | .str s => .ok (encBytes s)
  | .list xs =>
    match encodeElems xs with
    | .ok body => .ok (108 :: (body ++ [101]))
    | .error e => .error e
  | .dict es =>
    match encodeEntries es with
    | .ok ps => .ok (100 :: (entriesPayload (sortEntries ps) ++ [101]))
    | .error e => .error e
  | _ => .error .unsupportedType

/-- Encoding of the elements of a list, concatenated in order. -/
def encodeElems : List BObj → Except EncodeError Bytes
  | [] => .ok []
  | x :: xs =>
    match encodeObj x with
    | .ok bx =>
      match encodeElems xs with
      | .ok rest => .ok (bx ++ rest)
      | .error e => .error e
    | .error e => .error e

/-- Encoding of dict entries into (raw key bytes, encoded value) pairs,
in insertion order; sorting happens at emission. -/
def encodeEntries : List (BObj × BObj) → Except EncodeError (List (Bytes × Bytes))
  | [] => .ok []
  | (k, v) :: es =>
    match keyBytes k with
    | .ok kb =>
      match encodeObj v with
      | .ok vb =>
        match encodeEntries es with
        | .ok rest => .ok ((kb, vb) :: rest)
        | .error e => .error e
      | .error e => .error e
    | .error e => .error e
end

mutual
/-- Canonical-form encoder: the byte image of a value whose dicts are already
key-sorted; on such values it agrees with `encodeObj` (proved below). -/
def encC : BObj → Bytes
  | .int n => encInt n
  | .bytes b => encBytes b
  | .str s => encBytes s
  | .list xs => 108 :: (encCL xs ++ [101])
  | .dict es => 100 :: (encCE es ++ [101])
  | _ => []

/-- Canonical encoding of list elements, concatenated in order. -/
def encCL : List BObj → Bytes
  | [] => []
  | x :: xs => encC x ++ encCL xs

/-- Canonical encoding of dict entries in the order given. -/
def encCE : List (BObj × BObj) → Bytes
  | [] => []
  | (k, v) :: es =>
    (match k with
     | .bytes kb => encBytes kb
     | .str s => encBytes s
     | _ => []) ++ encC v ++ encCE es
end

/-- Raw bytes underlying a dict key (junk for non-key kinds). -/
def rawKey : BObj → Bytes
  | .bytes b => b
  | .str s => s
  | _ => []

/-- Adjacent strict ascending order of the raw key bytes of dict entries. -/
def entriesSorted : List (BObj × BObj) → Bool
  | [] => true
  | [_] => true
  | (k1, _) :: (k2, v2) :: es =>
    bytesLt (rawKey k1) (rawKey k2) && entriesSorted ((k2, v2) :: es)

mutual
/-- Supported values in canonical form: the four bencode kinds only, dict
keys raw ByteStrings in strictly ascending byte order. Decoding the
encoding of such a value returns it unchanged. -/
def canonicalV : BObj → Bool
  | .int _ => true
  | .bytes _ => true
  | .list xs => canonicalL xs
  | .dict es => canonicalE es && entriesSorted es
  | _ => false

/-- Canonicity of every element of a list. -/
def canonicalL : List BObj → Bool
  | [] => true
  | x :: xs => canonicalV x && canonicalL xs

/-- Canonicity of dict entries: every key a raw ByteString, every value canonical. -/
def canonicalE : List (BObj × BObj) → Bool
  | [] => true
  | (k, v) :: es =>
    (match k with
     | .bytes _ => true
     | _ => false) && canonicalV v && canonicalE es
end

mutual
/-- Container nesting depth of a value (ints and strings have depth 0). -/
def vdepth : BObj → Nat
  | .list xs => 1 + ldepth xs
  | .dict es => 1 + edepth es
  | _ => 0

/-- Maximum nesting depth over the elements of a list. -/
def ldepth : List BObj → Nat
  | [] => 0
  | x :: xs => max (vdepth x) (ldepth xs)

/-- Maximum nesting depth over dict entries. -/
def edepth : List (BObj × BObj) → Nat
  | [] => 0
  | (k, v) :: es => max (max (vdepth k) (vdepth v)) (edepth es)
end

mutual
/-- Parser-fuel requirement of a value: fuel decreases by one on each
recursive parser call, and sibling calls run at the same fuel, so the
requirement is height-like (max over children). -/
def vsize : BObj → Nat
  | .list xs => 1 + lsize xs
  | .dict es => 1 + esize es
  | _ => 1

/-- Parser-fuel requirement of a list body (≥ 1 even when empty, for the
terminating `e`). -/
def lsize : List BObj → Nat
  | [] => 1
  | x :: xs => 1 + max (vsize x) (lsize xs)

/-- Parser-fuel requirement of a dict body. -/
def esize : List (BObj × BObj) → Nat
  | [] => 1
  | (k, v) :: es => 1 + max (max (vsize k) (vsize v)) (esize es)
end

/-- Modelled from the spec: the decode-side error taxonomy. -/
inductive DecodeError where
  | unexpectedEndOfInput
  | invalidLengthPrefix
  | invalidInteger
  | unknownTypeTag
  | nonByteStringDictKey
  | duplicateDictKey
  | trailingData
  | nestingTooDeep
deriving DecidableEq

/-- ASCII decimal digit test. -/
def isDigit (c : Nat) : Bool := 48 ≤ c && c ≤ 57

/-- Longest digit prefix of the input, together with the remaining bytes. -/
def readDigits : Bytes → Bytes × Bytes
  | [] => ([], [])
  | c :: cs =>
    if isDigit c then
      let p := readDigits cs
      (c :: p.1, p.2)
    else ([], c :: cs)

/-- Value of a sequence of ASCII decimal digits, accumulated in
arbitrary-precision arithmetic. -/
def digitsToNat (ds : Bytes) : Nat := ds.foldl (fun a d => a * 10 + (d - 48)) 0

/-- Modelled from the spec: parse an unsigned decimal digit run terminated
by `e` (byte 101), rejecting a leading zero unless the run is exactly `0`,
empty runs and non-digit characters. -/
def parseUIntBody (b : Bytes) : Except DecodeError (Nat × Bytes) :=
  let p := readDigits b
  if p.1 = [] then
    (if b = [] then .error .unexpectedEndOfInput else .error .invalidInteger)
  else if p.1.head? = some 48 ∧ p.1.length ≠ 1 then .error .invalidInteger
  else
    match p.2 with
    | 101 :: r => .ok (digitsToNat p.1, r)
    | [] => .error .unexpectedEndOfInput
    | _ => .error .invalidInteger

/-- Modelled from the spec: parse an integer body (after the leading `i`):
optional `-` (byte 45), digits, terminating `e`; `-0` is rejected. -/
def parseIntBody (b : Bytes) : Except DecodeError (Int × Bytes) :=
  match b with
  | [] => .error .unexpectedEndOfInput
  | c :: t =>
    if c = 45 then
      match parseUIntBody t with
      | .ok (n, r) => if n = 0 then .error .invalidInteger else .ok (-(n : Int), r)
      | .error e => .error e
    else
      match parseUIntBody (c :: t) with
      | .ok (n, r) => .ok ((n : Int), r)
      | .error e => .error e

/-- Modelled from the spec: parse a length-prefixed byte string: digits
(no leading zero except the single digit `0`), `:` (byte 58), then exactly
that many raw bytes; too few remaining bytes is `UnexpectedEndOfInput`. -/
def parseStr (b : Bytes) : Except DecodeError (Bytes × Bytes) :=
  let p := readDigits b
  if p.1 = [] then .error .invalidLengthPrefix
  else if p.1.head? = some 48 ∧ p.1.length ≠ 1 then .error .invalidLengthPrefix
  else
    match p.2 with
    | 58 :: r =>
      if digitsToNat p.1 ≤ r.length then .ok (r.take (digitsToNat p.1), r.drop (digitsToNat p.1))
      else .error .unexpectedEndOfInput
    | [] => .error .unexpectedEndOfInput
    | _ => .error .invalidLengthPrefix

mutual
/-- Modelled from the spec: the recursive-descent value parser. Dispatches
on the lead byte (`i` = 105, `l` = 108, `d` = 100, a decimal digit, anything
else `UnknownTypeTag`), tracks the remaining nesting budget `depth`
(each `l`/`d` consumes one level; an exhausted budget is `NestingTooDeep`),
and materializes each dict key whose raw bytes are in `dk` (the
`decode_keys` option) as text instead of raw bytes. `fuel` only bounds the
recursion for totality; `decode` supplies more than any input can use. -/
def parseVal : Nat → Nat → List Bytes → Bytes → Except DecodeError (BObj × Bytes)
  | 0, _, _, _ => .error .unexpectedEndOfInput
  | fuel + 1, depth, dk, b =>
    match b with
    | [] => .error .unexpectedEndOfInput
    | c :: t =>
      if c = 105 then
        match parseIntBody t with
        | .ok (n, r) => .ok (.int n, r)
        | .error e => .error e
      else if c = 108 then
        match depth with
        | 0 => .error .nestingTooDeep
        | d + 1 =>
          match parseItems fuel d dk t with
          | .ok (xs, r) => .ok (.list xs, r)
          | .error e => .error e
      else if c = 100 then
        match depth with
        | 0 => .error .nestingTooDeep
        | d + 1 =>
          match parseEntries fuel d dk [] t with
          | .ok (es, r) => .ok (.dict es, r)
          | .error e => .error e
      else if isDigit c then
        match parseStr (c :: t) with
        | .ok (s, r) => .ok (.bytes s, r)
        | .error e => .error e
      else .error .unknownTypeTag

/-- List-body loop: parse values until the terminating `e` (byte 101). -/
def parseItems : Nat → Nat → List Bytes → Bytes → Except DecodeError (List BObj × Bytes)
  | 0, _, _, _ => .error .unexpectedEndOfInput
  | fuel + 1, depth, dk, b =>
    match b with
    | [] => .error .unexpectedEndOfInput
    | c :: t =>
      if c = 101 then .ok ([], t)
      else
        match parseVal fuel depth dk (c :: t) with
        | .ok (v, r) =>
          match parseItems fuel depth dk r with
          | .ok (vs, r2) => .ok (v :: vs, r2)
          | .error e => .error e
        | .error e => .error e

/-- Dict-body loop: parse key (must be a ByteString, else
`NonByteStringDictKey`; a repeat of an already-seen raw key is
`DuplicateDictKey`) then value, until the terminating `e`; keys whose raw
bytes are in `dk` are materialized as text. -/
def parseEntries :
    Nat → Nat → List Bytes → List Bytes → Bytes →
      Except DecodeError (List (BObj × BObj) × Bytes)
  | 0, _, _, _, _ => .error .unexpectedEndOfInput
  | fuel + 1, depth, dk, seen, b =>
    match b with
    | [] => .error .unexpectedEndOfInput
    | c :: t =>
      if c = 101 then .ok ([], t)
      else
        match parseVal fuel depth dk (c :: t) with
        | .error e => .error e
        | .ok (kv, r) =>
          match kv with
          | .bytes kraw =>
            if kraw ∈ seen then .error .duplicateDictKey
            else
              match parseVal fuel depth dk r with
              | .ok (v, r2) =>
                match parseEntries fuel depth dk (kraw :: seen) r2 with
                | .ok (es, r3) =>
                  .ok (((if kraw ∈ dk then BObj.str kraw else BObj.bytes kraw), v) :: es, r3)
                | .error e => .error e
              | .error e => .error e
          | _ => .error .nonByteStringDictKey
end

/-- Modelled from the spec: `decode(bytes, options) -> Value`. Parses exactly
one top-level value with nesting budget `maxDepth` and key-selector set `dk`;
any unconsumed bytes after the value are a `TrailingData` error. The fuel
`2 * |b| + 1` exceeds what any input can consume, so it never cuts a parse
short. -/
def decode (maxDepth : Nat) (dk : List Bytes) (b : Bytes) : Except DecodeError BObj :=
  match parseVal (2 * b.length + 1) maxDepth dk b with
  | .ok (v, []) => .ok v
  | .ok (_, _ :: _) => .error .trailingData
  | .error e => .error e

/-- Support test for dict keys at the encode boundary: ByteString or text only. -/
def isKeyOk : BObj → Bool
  | .bytes _ => true
  | .str _ => true
  | _ => false

mutual
/-- Presence, anywhere in the tree, of a leaf or container the encoder does
not support: None, booleans, floats, opaque objects, or a dict key that is
not a ByteString (or text). -/
def hasBad : BObj → Bool
  | .int _ => false
  | .bytes _ => false
  | .str _ => false
  | .list xs => hasBadL xs
  | .dict es => hasBadE es
  | _ => true

/-- Unsupported-leaf test over list elements. -/
def hasBadL : List BObj → Bool
  | [] => false
  | x :: xs => hasBad x || hasBadL xs

/-- Unsupported-leaf test over dict entries (keys must be ByteString/text). -/
def hasBadE : List (BObj × BObj) → Bool
  | [] => false
  | (k, v) :: es => !isKeyOk k || hasBad v || hasBadE es
end

mutual
/-- Key-selector correctness of a decoded value with respect to the
`decode_keys` set `dk`: at every nesting level, every dict key is text
exactly when its raw bytes are in `dk`, and raw bytes otherwise. -/
def keysOk (dk : List Bytes) : BObj → Bool
  | .list xs => keysOkL dk xs
  | .dict es => keysOkE dk es
  | _ => true

/-- Key-selector correctness over list elements. -/
def keysOkL (dk : List Bytes) : List BObj → Bool
  | [] => true
  | x :: xs => keysOk dk x && keysOkL dk xs

/-- Key-selector correctness over dict entries. -/
def keysOkE (dk : List Bytes) : List (BObj × BObj) → Bool
  | [] => true
  | (k, v) :: es =>
    (match k with
     | .str s => decide (s ∈ dk)
     | .bytes b => decide (b ∉ dk)
     | _ => false) && keysOk dk v && keysOkE dk es
end

/-- Non-strict byte-wise order on encoded entry pairs, by raw key. -/
def pairLe (p q : Bytes × Bytes) : Prop := bytesLt q.1 p.1 = false

/-- Adjacent strict ascending key order on encoded entry pairs. -/
def chainPairsLt : List (Bytes × Bytes) → Bool
  | [] => true
  | [_] => true
  | p :: q :: ps => bytesLt p.1 q.1 && chainPairsLt (q :: ps)

/-- Raw key bytes and canonical value encoding of one dict entry. -/
def pairC (e : BObj × BObj) : Bytes × Bytes := (rawKey e.1, encC e.2)

/-! ## Decimal digit arithmetic -/

theorem digitsToNat_append_one (ds : Bytes) (d : Nat) :
    digitsToNat (ds ++ [d]) = digitsToNat ds * 10 + (d - 48) := by
  simp [digitsToNat, List.foldl_append]

theorem natDigitsAux_irrel :
    ∀ f f' n, n < f → n < f' → natDigitsAux f n = natDigitsAux f' n := by
  intro f
  induction f with
  | zero => intro f' n h; omega
  | succ f ih =>
    intro f' n h h'
    match f', h' with
    | f' + 1, h' =>
      simp only [natDigitsAux]
      by_cases h10 : n < 10
      · simp [h10]
      · simp only [h10, if_false]
        have hd : n / 10 < n := Nat.div_lt_self (by omega) (by omega)
        rw [ih f' (n / 10) (by omega) (by omega)]

theorem natDigits_eq (n : Nat) :
    natDigits n = if n < 10 then [48 + n] else natDigits (n / 10) ++ [48 + n % 10] := by
  by_cases h10 : n < 10
  · simp [natDigits, natDigitsAux, h10]
  · have hd : n / 10 < n := Nat.div_lt_self (by omega) (by omega)
    rw [if_neg h10]
    show (if n < 10 then [48 + n] else natDigitsAux n (n / 10) ++ [48 + n % 10])
        = natDigitsAux (n / 10 + 1) (n / 10) ++ [48 + n % 10]
    rw [if_neg h10, natDigitsAux_irrel n (n / 10 + 1) (n / 10) (by omega) (by omega)]

theorem natDigits_ne_nil (n : Nat) : natDigits n ≠ [] := by
  rw [natDigits_eq]
  by_cases h10 : n < 10 <;> simp [h10]

theorem natDigits_all_digits (n : Nat) : ∀ d ∈ natDigits n, isDigit d = true := by
  induction n using Nat.strong_induction_on with
  | _ n ih =>
    rw [natDigits_eq]
    by_cases h10 : n < 10
    · simp only [h10, if_true, List.mem_singleton]
      intro d hd; subst hd; simp [isDigit]; omega
    · simp only [h10, if_false, List.mem_append, List.mem_singleton]
      intro d hd
      rcases hd with hd | hd
      · exact ih (n / 10) (Nat.div_lt_self (by omega) (by omega)) d hd
      · subst hd; simp [isDigit]; omega

theorem digitsToNat_natDigits (n : Nat) : digitsToNat (natDigits n) = n := by
  induction n using Nat.strong_induction_on with
  | _ n ih =>
    rw [natDigits_eq]
    by_cases h10 : n < 10
    · simp [h10, digitsToNat]
    · simp only [h10, if_false, digitsToNat_append_one]
      rw [ih (n / 10) (Nat.div_lt_self (by omega) (by omega))]
      omega

theorem natDigits_head_ne_zero (n : Nat) (hn : n ≠ 0) :
    (natDigits n).head? ≠ some 48 := by
  induction n using Nat.strong_induction_on with
  | _ n ih =>
    rw [natDigits_eq]
    by_cases h10 : n < 10
    · simp only [h10, if_true, List.head?_cons, ne_eq, Option.some.injEq]
      omega
    · simp only [h10, if_false]
      obtain ⟨c, cs, hds⟩ := List.exists_cons_of_ne_nil (natDigits_ne_nil (n / 10))
      rw [hds, List.cons_append, List.head?_cons]
      have := ih (n / 10) (Nat.div_lt_self (by omega) (by omega)) (by omega)
      rw [hds, List.head?_cons] at this
      exact this

/-! ## Digit scanning and the primitive parsers on encoder output -/

theorem take_append_len (a b : Bytes) : (a ++ b).take a.length = a := by
  induction a with
  | nil => rfl
  | cons x xs ih => simp [ih]

theorem drop_append_len (a b : Bytes) : (a ++ b).drop a.length = b := by
  induction a with
  | nil => rfl
  | cons x xs ih => simp [ih]

theorem readDigits_append (ds rest : Bytes)
    (hds : ∀ d ∈ ds, isDigit d = true)
    (hr : ∀ c, rest.head? = some c → isDigit c = false) :
    readDigits (ds ++ rest) = (ds, rest) := by
  induction ds with
  | nil =>
    match rest with
    | [] => rfl
    | c :: t =>
      have := hr c rfl
      simp [readDigits, this]
  | cons d ds ih =>
    have hd : isDigit d = true := hds d (by simp)
    have ih' := ih (fun x hx => hds x (by simp [hx]))
    simp [readDigits, hd, ih']

theorem natDigits_zero_check (n : Nat) :
    ¬((natDigits n).head? = some 48 ∧ (natDigits n).length ≠ 1) := by
  by_cases hn : n = 0
  · subst hn
    intro h
    exact h.2 (by rfl)
  · intro h
    exact natDigits_head_ne_zero n hn h.1

theorem parseUIntBody_enc (n : Nat) (rest : Bytes) :
    parseUIntBody (natDigits n ++ 101 :: rest) = .ok (n, rest) := by
  have hrd : readDigits (natDigits n ++ 101 :: rest) = (natDigits n, 101 :: rest) :=
    readDigits_append _ _ (natDigits_all_digits n)
      (fun c hc => by
        rw [List.head?_cons] at hc
        cases hc
        rfl)
  have hne : natDigits n ++ 101 :: rest ≠ [] := by
    intro h
    exact natDigits_ne_nil n (List.append_eq_nil.mp h).1
  simp only [parseUIntBody, hrd]
  rw [if_neg (natDigits_ne_nil n), if_neg (natDigits_zero_check n)]
  simp [digitsToNat_natDigits]

theorem digit_head_of_natDigits (n : Nat) :
    ∃ c t, natDigits n = c :: t ∧ isDigit c = true := by
  obtain ⟨c, t, h⟩ := List.exists_cons_of_ne_nil (natDigits_ne_nil n)
  exact ⟨c, t, h, natDigits_all_digits n c (by simp [h])⟩

theorem parseIntBody_enc (n : Int) (rest : Bytes) :
    parseIntBody (intDigits n ++ 101 :: rest) = .ok (n, rest) := by
  match n with
  | .ofNat m =>
    obtain ⟨c, t, hds, hdig⟩ := digit_head_of_natDigits m
    have hc45 : ¬(c = 45) := by
      simp [isDigit] at hdig
      omega
    have hu := parseUIntBody_enc m rest
    rw [hds, List.cons_append] at hu
    simp only [intDigits, hds, List.cons_append, parseIntBody, if_neg hc45, hu]
    rfl
  | .negSucc m =>
    have hu := parseUIntBody_enc (m + 1) rest
    simp only [intDigits, List.cons_append, parseIntBody, reduceIte, hu]
    rw [if_neg (by omega : ¬(m + 1 = 0))]
    simp only [Except.ok.injEq, Prod.mk.injEq, and_true]
    rw [Int.negSucc_eq]
    push_cast
    ring

theorem parseStr_enc (b rest : Bytes) :
    parseStr (encBytes b ++ rest) = .ok (b, rest) := by
  have hshape : encBytes b ++ rest = natDigits b.length ++ (58 :: (b ++ rest)) := by
    simp [encBytes]
  have hrd : readDigits (natDigits b.length ++ (58 :: (b ++ rest)))
      = (natDigits b.length, 58 :: (b ++ rest)) :=
    readDigits_append _ _ (natDigits_all_digits b.length)
      (fun c hc => by
        rw [List.head?_cons] at hc
        cases hc
        rfl)
  rw [hshape]
  simp only [parseStr, hrd]
  rw [if_neg (natDigits_ne_nil b.length), if_neg (natDigits_zero_check b.length)]
  simp only [digitsToNat_natDigits]
  rw [if_pos (by simp)]
  rw [take_append_len, drop_append_len]

/-! ## The byte-wise lexicographic order -/

theorem bytesLt_irrefl : ∀ b : Bytes, bytesLt b b = false := by
  intro b
  induction b with
  | nil => rfl
  | cons x xs ih => simp [bytesLt, ih]

theorem bytesLt_trans (a : Bytes) :
    ∀ b c : Bytes, bytesLt a b = true → bytesLt b c = true → bytesLt a c = true := by
  induction a with
  | nil =>
    intro b c h1 h2
    cases c with
    | nil => cases b <;> simp [bytesLt] at h2
    | cons z zs => simp [bytesLt]
  | cons x xs ih =>
    intro b c h1 h2
    cases b with
    | nil => simp [bytesLt] at h1
    | cons y ys =>
      cases c with
      | nil => simp [bytesLt] at h2
      | cons z zs =>
        simp only [bytesLt] at h1 h2 ⊢
        by_cases hxy : x < y
        · by_cases hyz : y < z
          · simp [show x < z by omega]
          · by_cases hzy : z < y
            · simp [hyz, hzy] at h2
            · simp [show x < z by omega]
        · by_cases hyx : y < x
          · simp [hxy, hyx] at h1
          · have hxy' : x = y := by omega
            subst hxy'
            simp only [hxy, if_false, lt_irrefl] at h1
            by_cases hxz : x < z
            · simp [hxz]
            · by_cases hzx : z < x
              · simp [hxz, hzx] at h2
              · simp only [hxz, hzx, if_false] at h2 ⊢
                exact ih ys zs h1 h2

theorem bytesLt_asymm (a b : Bytes) (h : bytesLt a b = true) : bytesLt b a = false := by
  cases hba : bytesLt b a with
  | false => rfl
  | true =>
    have := bytesLt_trans a b a h hba
    rw [bytesLt_irrefl] at this
    exact absurd this (by simp)

theorem bytesLt_conn :
    ∀ a b : Bytes, bytesLt a b = false → bytesLt b a = false → a = b := by
  intro a
  induction a with
  | nil =>
    intro b h1 h2
    cases b with
    | nil => rfl
    | cons y ys => simp [bytesLt] at h1
  | cons x xs ih =>
    intro b h1 h2
    cases b with
    | nil => simp [bytesLt] at h2
    | cons y ys =>
      simp only [bytesLt] at h1 h2
      by_cases hxy : x < y
      · simp [hxy] at h1
      · by_cases hyx : y < x
        · simp [hxy, hyx] at h2
        · have hxy' : x = y := by omega
          subst hxy'
          simp only [hxy, lt_irrefl, if_false] at h1 h2
          rw [ih ys h1 h2]

theorem bytesLe_trans (a b c : Bytes)
    (h1 : bytesLt b a = false) (h2 : bytesLt c b = false) : bytesLt c a = false := by
  cases hca : bytesLt c a with
  | false => rfl
  | true =>
    cases hbc : bytesLt b c with
    | true =>
      have := bytesLt_trans b c a hbc hca
      rw [this] at h1
      cases h1
    | false =>
      have hbceq : b = c := bytesLt_conn b c hbc h2
      subst hbceq
      rw [hca] at h1
      cases h1

/-! ## Insertion sort of dict entries -/

theorem insertEntry_perm (p : Bytes × Bytes) (l : List (Bytes × Bytes)) :
    (insertEntry p l).Perm (p :: l) := by
  induction l with
  | nil => exact List.Perm.refl _
  | cons q qs ih =>
    simp only [insertEntry]
    by_cases h : bytesLt q.1 p.1 = true
    · rw [if_pos h]
      exact (ih.cons q).trans (List.Perm.swap p q qs)
    · rw [if_neg h]

theorem sortEntries_perm (l : List (Bytes × Bytes)) : (sortEntries l).Perm l := by
  induction l with
  | nil => exact List.Perm.refl _
  | cons p ps ih => exact (insertEntry_perm p (sortEntries ps)).trans (ih.cons p)

theorem insertEntry_pairwise (p : Bytes × Bytes) (l : List (Bytes × Bytes))
    (h : List.Pairwise pairLe l) : List.Pairwise pairLe (insertEntry p l) := by
  induction l with
  | nil => simp [insertEntry]
  | cons q qs ih =>
    simp only [insertEntry]
    by_cases hqp : bytesLt q.1 p.1 = true
    · rw [if_pos hqp]
      refine List.Pairwise.cons ?_ (ih h.tail)
      intro r hr
      rcases List.mem_cons.mp (((insertEntry_perm p qs).mem_iff).mp hr) with hr | hr
      · rw [hr]
        show bytesLt p.1 q.1 = false
        exact bytesLt_asymm q.1 p.1 hqp
      · exact (List.pairwise_cons.mp h).1 r hr
    · rw [if_neg hqp]
      refine List.Pairwise.cons ?_ h
      intro r hr
      rcases List.mem_cons.mp hr with hr | hr
      · rw [hr]
        simpa [pairLe] using hqp
      · have hqr : bytesLt r.1 q.1 = false := (List.pairwise_cons.mp h).1 r hr
        have hpq : bytesLt q.1 p.1 = false := by
          revert hqp; cases bytesLt q.1 p.1 <;> simp
        exact bytesLe_trans p.1 q.1 r.1 hpq hqr

theorem sortEntries_pairwise (l : List (Bytes × Bytes)) :
    List.Pairwise pairLe (sortEntries l) := by
  induction l with
  | nil => simp [sortEntries]
  | cons p ps ih => exact insertEntry_pairwise p (sortEntries ps) ih

theorem chainPairsLt_tail (p : Bytes × Bytes) (l : List (Bytes × Bytes))
    (h : chainPairsLt (p :: l) = true) : chainPairsLt l = true := by
  cases l with
  | nil => rfl
  | cons q qs =>
    simp only [chainPairsLt, Bool.and_eq_true] at h
    exact h.2

theorem sortEntries_id :
    ∀ l : List (Bytes × Bytes), chainPairsLt l = true → sortEntries l = l := by
  intro l
  induction l with
  | nil => intro _; rfl
  | cons p ps ih =>
    intro h
    have hps := ih (chainPairsLt_tail p ps h)
    simp only [sortEntries, hps]
    cases ps with
    | nil => rfl
    | cons q qs =>
      simp only [chainPairsLt, Bool.and_eq_true] at h
      simp [insertEntry, bytesLt_asymm p.1 q.1 h.1]

/-! ## Size positivity and encoding shapes -/

theorem vsize_pos (v : BObj) : 1 ≤ vsize v := by
  cases v <;> simp only [vsize] <;> omega

theorem lsize_pos (xs : List BObj) : 1 ≤ lsize xs := by
  cases xs <;> simp only [lsize] <;> omega

theorem esize_pos (es : List (BObj × BObj)) : 1 ≤ esize es := by
  cases es with
  | nil => simp [esize]
  | cons e es => obtain ⟨k, v⟩ := e; simp only [esize]; omega

theorem natDigits_len_pos (n : Nat) : 1 ≤ (natDigits n).length :=
  List.length_pos.mpr (natDigits_ne_nil n)

theorem encBytes_len (b : Bytes) : (encBytes b).length = (natDigits b.length).length + 1 + b.length := by
  simp [encBytes]
  omega

theorem encC_shape (v : BObj) (hc : canonicalV v = true) :
    ∃ c t, encC v = c :: t ∧ (c = 105 ∨ c = 108 ∨ c = 100 ∨ isDigit c = true) := by
  cases v with
  | int n => exact ⟨105, _, rfl, Or.inl rfl⟩
  | bytes b =>
    obtain ⟨c, t, hds, hdig⟩ := digit_head_of_natDigits b.length
    refine ⟨c, t ++ 58 :: b, ?_, Or.inr (Or.inr (Or.inr hdig))⟩
    simp [encC, encBytes, hds]
  | str s => simp [canonicalV] at hc
  | list xs => exact ⟨108, _, rfl, Or.inr (Or.inl rfl)⟩
  | dict es => exact ⟨100, _, rfl, Or.inr (Or.inr (Or.inl rfl))⟩
  | pynone => simp [canonicalV] at hc
  | pybool b => simp [canonicalV] at hc
  | pyfloat => simp [canonicalV] at hc
  | pyother => simp [canonicalV] at hc

theorem encC_len_pos (v : BObj) (hc : canonicalV v = true) : 1 ≤ (encC v).length := by
  obtain ⟨c, t, hct, _⟩ := encC_shape v hc
  simp [hct]

theorem size_le_encC_all : ∀ N,
    (∀ v, vsize v ≤ N → canonicalV v = true → vsize v ≤ (encC v).length)
    ∧ (∀ xs, lsize xs ≤ N → canonicalL xs = true → lsize xs ≤ 1 + (encCL xs).length)
    ∧ (∀ es, esize es ≤ N → canonicalE es = true → esize es ≤ 1 + (encCE es).length) := by
  intro N
  induction N with
  | zero =>
    refine ⟨fun v hv _ => absurd hv (by have := vsize_pos v; omega),
            fun xs hxs _ => absurd hxs (by have := lsize_pos xs; omega),
            fun es hes _ => absurd hes (by have := esize_pos es; omega)⟩
  | succ N ih =>
    obtain ⟨ihV, ihL, ihE⟩ := ih
    refine ⟨?_, ?_, ?_⟩
    · intro v hv hc
      cases v with
      | int n => simp [vsize, encC, encInt]
      | bytes b =>
        have := natDigits_len_pos b.length
        simp [vsize, encC, encBytes]
        omega
      | str s => simp [canonicalV] at hc
      | list xs =>
        simp only [canonicalV] at hc
        simp only [vsize, encC] at hv ⊢
        have := ihL xs (by omega) hc
        simp only [List.length_cons, List.length_append, List.length_singleton]
        omega
      | dict es =>
        simp only [canonicalV, Bool.and_eq_true] at hc
        simp only [vsize, encC] at hv ⊢
        have := ihE es (by omega) hc.1
        simp only [List.length_cons, List.length_append, List.length_singleton]
        omega
      | pynone => simp [canonicalV] at hc
      | pybool b => simp [canonicalV] at hc
      | pyfloat => simp [canonicalV] at hc
      | pyother => simp [canonicalV] at hc
    · intro xs hxs hc
      cases xs with
      | nil => simp [lsize]
      | cons x xs =>
        simp only [canonicalL, Bool.and_eq_true] at hc
        simp only [lsize] at hxs ⊢
        have h1 : vsize x ≤ (encC x).length := ihV x (by omega) hc.1
        have h2 : lsize xs ≤ 1 + (encCL xs).length := ihL xs (by omega) hc.2
        have h3 : 1 ≤ (encC x).length := encC_len_pos x hc.1
        simp only [encCL, List.length_append]
        omega
    · intro es hes hc
      cases es with
      | nil => simp [esize]
      | cons e es =>
        obtain ⟨k, v⟩ := e
        cases k with
        | bytes kb =>
          simp only [canonicalE, Bool.and_eq_true] at hc
          simp only [esize] at hes ⊢
          have h1 : vsize v ≤ (encC v).length := ihV v (by omega) hc.1.2
          have h2 : esize es ≤ 1 + (encCE es).length := ihE es (by omega) hc.2
          have h3 : 1 ≤ (natDigits kb.length).length := natDigits_len_pos kb.length
          simp only [encCE, List.length_append, encBytes_len, vsize]
          omega
        | int n => simp [canonicalE] at hc
        | str s => simp [canonicalE] at hc
        | list l => simp [canonicalE] at hc
        | dict d => simp [canonicalE] at hc
        | pynone => simp [canonicalE] at hc
        | pybool b => simp [canonicalE] at hc
        | pyfloat => simp [canonicalE] at hc
        | pyother => simp [canonicalE] at hc

theorem vsize_le_encC (v : BObj) (hc : canonicalV v = true) :
    vsize v ≤ (encC v).length :=
  (size_le_encC_all (vsize v)).1 v le_rfl hc

/-! ## Agreement of `encodeObj` with the canonical encoder on canonical values -/

theorem entriesSorted_chain :
    ∀ es, entriesSorted es = true → chainPairsLt (List.map pairC es) = true := by
  intro es
  induction es with
  | nil => intro _; rfl
  | cons e1 rest ih =>
    cases rest with
    | nil => intro _; rfl
    | cons e2 rest2 =>
      intro h
      obtain ⟨k1, v1⟩ := e1
      obtain ⟨k2, v2⟩ := e2
      simp only [entriesSorted, Bool.and_eq_true] at h
      have := ih h.2
      simp only [List.map_cons] at this ⊢
      simp only [chainPairsLt, Bool.and_eq_true]
      exact ⟨h.1, this⟩

theorem encCE_payload :
    ∀ es, canonicalE es = true → entriesPayload (List.map pairC es) = encCE es := by
  intro es
  induction es with
  | nil => intro _; rfl
  | cons e es ih =>
    intro hc
    obtain ⟨k, v⟩ := e
    cases k with
    | bytes kb =>
      simp only [canonicalE, Bool.and_eq_true] at hc
      simp only [List.map_cons, entriesPayload, encCE, pairC, rawKey, ih hc.2]
    | int n => simp [canonicalE] at hc
    | str s => simp [canonicalE] at hc
    | list l => simp [canonicalE] at hc
    | dict d => simp [canonicalE] at hc
    | pynone => simp [canonicalE] at hc
    | pybool b => simp [canonicalE] at hc
    | pyfloat => simp [canonicalE] at hc
    | pyother => simp [canonicalE] at hc

theorem encode_agree_all : ∀ N,
    (∀ v, vsize v ≤ N → canonicalV v = true → encodeObj v = .ok (encC v))
    ∧ (∀ xs, lsize xs ≤ N → canonicalL xs = true → encodeElems xs = .ok (encCL xs))
    ∧ (∀ es, esize es ≤ N → canonicalE es = true →
        encodeEntries es = .ok (List.map pairC es)) := by
  intro N
  induction N with
  | zero =>
    refine ⟨fun v hv _ => absurd hv (by have := vsize_pos v; omega),
            fun xs hxs _ => absurd hxs (by have := lsize_pos xs; omega),
            fun es hes _ => absurd hes (by have := esize_pos es; omega)⟩
  | succ N ih =>
    obtain ⟨ihV, ihL, ihE⟩ := ih
    refine ⟨?_, ?_, ?_⟩
    · intro v hv hc
      cases v with
      | int n => rfl
      | bytes b => rfl
      | str s => simp [canonicalV] at hc
      | list xs =>
        simp only [canonicalV] at hc
        simp only [vsize] at hv
        have := ihL xs (by omega) hc
        simp only [encodeObj, this, encC]
      | dict es =>
        simp only [canonicalV, Bool.and_eq_true] at hc
        simp only [vsize] at hv
        have he := ihE es (by omega) hc.1
        have hid : sortEntries (List.map pairC es) = List.map pairC es :=
          sortEntries_id _ (entriesSorted_chain es hc.2)
        simp only [encodeObj, he, hid, encCE_payload es hc.1, encC]
      | pynone => simp [canonicalV] at hc
      | pybool b => simp [canonicalV] at hc
      | pyfloat => simp [canonicalV] at hc
      | pyother => simp [canonicalV] at hc
    · intro xs hxs hc
      cases xs with
      | nil => rfl
      | cons x xs =>
        simp only [canonicalL, Bool.and_eq_true] at hc
        simp only [lsize] at hxs
        have h1 := ihV x (by omega) hc.1
        have h2 := ihL xs (by omega) hc.2
        simp only [encodeElems, h1, h2, encCL]
    · intro es hes hc
      cases es with
      | nil => rfl
      | cons e es =>
        obtain ⟨k, v⟩ := e
        cases k with
        | bytes kb =>
          simp only [canonicalE, Bool.and_eq_true] at hc
          simp only [esize] at hes
          have h1 := ihV v (by omega) hc.1.2
          have h2 := ihE es (by omega) hc.2
          simp only [encodeEntries, keyBytes, h1, h2, List.map_cons, pairC, rawKey]
        | int n => simp [canonicalE] at hc
        | str s => simp [canonicalE] at hc
        | list l => simp [canonicalE] at hc
        | dict d => simp [canonicalE] at hc
        | pynone => simp [canonicalE] at hc
        | pybool b => simp [canonicalE] at hc
        | pyfloat => simp [canonicalE] at hc
        | pyother => simp [canonicalE] at hc

theorem encodeObj_canonical (v : BObj) (hc : canonicalV v = true) :
    encodeObj v = .ok (encC v) :=
  (encode_agree_all (vsize v)).1 v le_rfl hc

/-! ## Sorted-entry facts used while parsing dict bodies -/

theorem entriesSorted_tail (k v : BObj) (es : List (BObj × BObj))
    (h : entriesSorted ((k, v) :: es) = true) : entriesSorted es = true := by
  cases es with
  | nil => rfl
  | cons e2 es2 =>
    obtain ⟨k2, v2⟩ := e2
    simp only [entriesSorted, Bool.and_eq_true] at h
    exact h.2

theorem entriesSorted_head_lt :
    ∀ (es : List (BObj × BObj)) (k v : BObj), entriesSorted ((k, v) :: es) = true →
      ∀ e ∈ es, bytesLt (rawKey k) (rawKey e.1) = true := by
  intro es
  induction es with
  | nil =>
    intro k v _ e he
    simp at he
  | cons e2 es2 ih =>
    intro k v h e he
    obtain ⟨k2, v2⟩ := e2
    simp only [entriesSorted, Bool.and_eq_true] at h
    rcases List.mem_cons.mp he with he | he
    · rw [he]
      exact h.1
    · exact bytesLt_trans _ _ _ h.1 (ih k2 v2 h.2 e he)

/-! ## One-step unfolding equations of the parsers -/

theorem parseVal_i (fuel d : Nat) (dk : List Bytes) (t : Bytes) :
    parseVal (fuel + 1) d dk (105 :: t)
      = (match parseIntBody t with
         | .ok (n, r) => .ok (.int n, r)
         | .error e => .error e) := rfl

theorem parseVal_l (fuel d : Nat) (dk : List Bytes) (t : Bytes) :
    parseVal (fuel + 1) (d + 1) dk (108 :: t)
      = (match parseItems fuel d dk t with
         | .ok (xs, r) => .ok (.list xs, r)
         | .error e => .error e) := rfl

theorem parseVal_l0 (fuel : Nat) (dk : List Bytes) (t : Bytes) :
    parseVal (fuel + 1) 0 dk (108 :: t) = .error .nestingTooDeep := rfl

theorem parseVal_d (fuel d : Nat) (dk : List Bytes) (t : Bytes) :
    parseVal (fuel + 1) (d + 1) dk (100 :: t)
      = (match parseEntries fuel d dk [] t with
         | .ok (es, r) => .ok (.dict es, r)
         | .error e => .error e) := rfl

theorem parseVal_d0 (fuel : Nat) (dk : List Bytes) (t : Bytes) :
    parseVal (fuel + 1) 0 dk (100 :: t) = .error .nestingTooDeep := rfl

theorem parseVal_str (fuel d : Nat) (dk : List Bytes) (c : Nat) (t : Bytes)
    (h48 : 48 ≤ c) (h57 : c ≤ 57) :
    parseVal (fuel + 1) d dk (c :: t)
      = (match parseStr (c :: t) with
         | .ok (s, r) => .ok (.bytes s, r)
         | .error e => .error e) := by
  have hd : isDigit c = true := by
    simp only [isDigit, Bool.and_eq_true, decide_eq_true_eq]
    omega
  simp only [parseVal]
  rw [if_neg (by omega : ¬(c = 105)), if_neg (by omega : ¬(c = 108)),
    if_neg (by omega : ¬(c = 100)), if_pos hd]

theorem parseItems_e (fuel d : Nat) (dk : List Bytes) (t : Bytes) :
    parseItems (fuel + 1) d dk (101 :: t) = .ok ([], t) := rfl

theorem parseItems_step (fuel d : Nat) (dk : List Bytes) (c : Nat) (t : Bytes)
    (hc : ¬(c = 101)) :
    parseItems (fuel + 1) d dk (c :: t)
      = (match parseVal fuel d dk (c :: t) with
         | .ok (v, r) =>
           (match parseItems fuel d dk r with
            | .ok (vs, r2) => .ok (v :: vs, r2)
            | .error e => .error e)
         | .error e => .error e) := by
  simp only [parseItems]
  rw [if_neg hc]

theorem parseEntries_e (fuel d : Nat) (dk seen : List Bytes) (t : Bytes) :
    parseEntries (fuel + 1) d dk seen (101 :: t) = .ok ([], t) := rfl

theorem parseEntries_step (fuel d : Nat) (dk seen : List Bytes) (c : Nat) (t : Bytes)
    (hc : ¬(c = 101)) :
    parseEntries (fuel + 1) d dk seen (c :: t)
      = (match parseVal fuel d dk (c :: t) with
         | .error e => .error e
         | .ok (kv, r) =>
           (match kv with
            | .bytes kraw =>
              if kraw ∈ seen then .error .duplicateDictKey
              else
                (match parseVal fuel d dk r with
                 | .ok (v, r2) =>
                   (match parseEntries fuel d dk (kraw :: seen) r2 with
                    | .ok (es, r3) =>
                      .ok (((if kraw ∈ dk then BObj.str kraw else BObj.bytes kraw), v) :: es, r3)
                    | .error e => .error e)
                 | .error e => .error e)
            | _ => .error .nonByteStringDictKey)) := by
  simp only [parseEntries]
  rw [if_neg hc]

/-! ## The decoder recovers every canonically encoded value -/

theorem parse_enc_all : ∀ fuel : Nat,
    (∀ d (v : BObj) rest, canonicalV v = true → vdepth v ≤ d → vsize v ≤ fuel →
      parseVal fuel d [] (encC v ++ rest) = .ok (v, rest))
    ∧ (∀ d (xs : List BObj) rest, canonicalL xs = true → ldepth xs ≤ d → lsize xs ≤ fuel →
      parseItems fuel d [] (encCL xs ++ 101 :: rest) = .ok (xs, rest))
    ∧ (∀ d (es : List (BObj × BObj)) seen rest, canonicalE es = true →
      entriesSorted es = true →
      (∀ s ∈ seen, ∀ e ∈ es, bytesLt s (rawKey e.1) = true) →
      edepth es ≤ d → esize es ≤ fuel →
      parseEntries fuel d [] seen (encCE es ++ 101 :: rest) = .ok (es, rest)) := by
  intro fuel
  induction fuel with
  | zero =>
    refine ⟨fun d v rest _ _ hs => absurd hs (by have := vsize_pos v; omega),
            fun d xs rest _ _ hs => absurd hs (by have := lsize_pos xs; omega),
            fun d es seen rest _ _ _ _ hs => absurd hs (by have := esize_pos es; omega)⟩
  | succ fuel ih =>
    obtain ⟨ihV, ihL, ihE⟩ := ih
    refine ⟨?_, ?_, ?_⟩
    · -- parseVal on a canonical encoding
      intro d v rest hc hdep hsz
      cases v with
      | int n =>
        have hform : encC (.int n) ++ rest = 105 :: (intDigits n ++ 101 :: rest) := by
          simp [encC, encInt]
        rw [hform, parseVal_i]
        simp only [parseIntBody_enc n rest]
      | bytes b =>
        obtain ⟨c, t, hds, hdig⟩ := digit_head_of_natDigits b.length
        have hcb : 48 ≤ c ∧ c ≤ 57 := by simpa [isDigit] using hdig
        have hform : encBytes b ++ rest = c :: (t ++ 58 :: (b ++ rest)) := by
          simp [encBytes, hds]
        have hformC : encC (.bytes b) ++ rest = c :: (t ++ 58 :: (b ++ rest)) := hform
        rw [hformC, parseVal_str fuel d [] c _ hcb.1 hcb.2, ← hform, parseStr_enc b rest]
      | str s => simp [canonicalV] at hc
      | list xs =>
        simp only [canonicalV] at hc
        simp only [vdepth] at hdep
        simp only [vsize] at hsz
        cases d with
        | zero => omega
        | succ d' =>
          have hform : encC (.list xs) ++ rest = 108 :: (encCL xs ++ 101 :: rest) := by
            simp [encC]
          rw [hform, parseVal_l, ihL d' xs rest hc (by omega) (by omega)]
      | dict es =>
        simp only [canonicalV, Bool.and_eq_true] at hc
        simp only [vdepth] at hdep
        simp only [vsize] at hsz
        cases d with
        | zero => omega
        | succ d' =>
          have hform : encC (.dict es) ++ rest = 100 :: (encCE es ++ 101 :: rest) := by
            simp [encC]
          rw [hform, parseVal_d, ihE d' es [] rest hc.1 hc.2 (by simp) (by omega) (by omega)]
      | pynone => simp [canonicalV] at hc
      | pybool b => simp [canonicalV] at hc
      | pyfloat => simp [canonicalV] at hc
      | pyother => simp [canonicalV] at hc
    · -- parseItems on canonical list elements
      intro d xs rest hc hdep hsz
      cases xs with
      | nil =>
        show parseItems (fuel + 1) d [] (101 :: rest) = .ok ([], rest)
        exact parseItems_e fuel d [] rest
      | cons x xs =>
        simp only [canonicalL, Bool.and_eq_true] at hc
        simp only [ldepth] at hdep
        simp only [lsize] at hsz
        obtain ⟨c, t, hct, hopt⟩ := encC_shape x hc.1
        have hc101 : ¬(c = 101) := by
          rcases hopt with h | h | h | h
          · omega
          · omega
          · omega
          · have : 48 ≤ c ∧ c ≤ 57 := by simpa [isDigit] using h
            omega
        have hform : encCL (x :: xs) ++ 101 :: rest
            = c :: (t ++ (encCL xs ++ 101 :: rest)) := by
          simp [encCL, hct]
        have hx : parseVal fuel d [] (c :: (t ++ (encCL xs ++ 101 :: rest)))
            = .ok (x, encCL xs ++ 101 :: rest) := by
          have h0 := ihV d x (encCL xs ++ 101 :: rest) hc.1 (by omega) (by omega)
          rw [hct] at h0
          simpa using h0
        rw [hform, parseItems_step fuel d [] c _ hc101]
        simp only [hx]
        rw [ihL d xs rest hc.2 (by omega) (by omega)]
    · -- parseEntries on canonical dict entries
      intro d es seen rest hce hsort hseen hdep hsz
      cases es with
      | nil =>
        show parseEntries (fuel + 1) d [] seen (101 :: rest) = .ok ([], rest)
        exact parseEntries_e fuel d [] seen rest
      | cons e es2 =>
        obtain ⟨k, v⟩ := e
        cases k with
        | bytes kb =>
          simp only [canonicalE, Bool.and_eq_true] at hce
          simp only [edepth] at hdep
          simp only [esize] at hsz
          have hes2pos := esize_pos es2
          have hvpos := vsize_pos v
          have hkdep : vdepth (BObj.bytes kb) = 0 := rfl
          obtain ⟨c, t, hds, hdig⟩ := digit_head_of_natDigits kb.length
          have hcb : 48 ≤ c ∧ c ≤ 57 := by simpa [isDigit] using hdig
          have hform : encCE ((BObj.bytes kb, v) :: es2) ++ 101 :: rest
              = c :: (t ++ 58 :: (kb ++ (encC v ++ (encCE es2 ++ 101 :: rest)))) := by
            simp [encCE, encBytes, hds]
          have hkparse : parseVal fuel d []
              (c :: (t ++ 58 :: (kb ++ (encC v ++ (encCE es2 ++ 101 :: rest)))))
              = .ok (.bytes kb, encC v ++ (encCE es2 ++ 101 :: rest)) := by
            have h0 := ihV d (.bytes kb) (encC v ++ (encCE es2 ++ 101 :: rest)) rfl
              (by simp [vdepth]) (by simp only [vsize]; omega)
            rw [show encC (.bytes kb) = natDigits kb.length ++ 58 :: kb from rfl, hds] at h0
            simpa using h0
          have hnotmem : ¬(kb ∈ seen) := by
            intro hmem
            have := hseen kb hmem (BObj.bytes kb, v) (List.mem_cons_self _ _)
            rw [rawKey, bytesLt_irrefl] at this
            cases this
          have hvparse : parseVal fuel d [] (encC v ++ (encCE es2 ++ 101 :: rest))
              = .ok (v, encCE es2 ++ 101 :: rest) :=
            ihV d v _ hce.1.2 (by omega) (by omega)
          have hrest : parseEntries fuel d [] (kb :: seen) (encCE es2 ++ 101 :: rest)
              = .ok (es2, rest) := by
            refine ihE d es2 (kb :: seen) rest hce.2
              (entriesSorted_tail _ _ _ hsort) ?_ (by omega) (by omega)
            intro s hs e he
            rcases List.mem_cons.mp hs with hs | hs
            · rw [hs]
              exact entriesSorted_head_lt es2 (BObj.bytes kb) v hsort e he
            · exact hseen s hs e (List.mem_cons_of_mem _ he)
          rw [hform, parseEntries_step fuel d [] seen c _ (by omega)]
          simp only [hkparse]
          rw [if_neg hnotmem]
          simp only [hvparse, hrest]
          rw [if_neg (by simp : ¬(kb ∈ ([] : List Bytes)))]
        | int n => simp [canonicalE] at hce
        | str s => simp [canonicalE] at hce
        | list l => simp [canonicalE] at hce
        | dict dd => simp [canonicalE] at hce
        | pynone => simp [canonicalE] at hce
        | pybool b => simp [canonicalE] at hce
        | pyfloat => simp [canonicalE] at hce
        | pyother => simp [canonicalE] at hce

theorem decode_encC (md : Nat) (v : BObj) (hc : canonicalV v = true)
    (hd : vdepth v ≤ md) : decode md [] (encC v) = .ok v := by
  have hp := (parse_enc_all (2 * (encC v).length + 1)).1 md v [] hc hd
    (by have := vsize_le_encC v hc; omega)
  rw [List.append_nil] at hp
  simp only [decode, hp]

/-! ## The encoder fails exactly on unsupported content -/

theorem encode_bad_all : ∀ N,
    (∀ v, vsize v ≤ N →
      ((hasBad v = true → encodeObj v = .error .unsupportedType)
        ∧ (hasBad v = false → ∃ bs, encodeObj v = .ok bs)))
    ∧ (∀ xs, lsize xs ≤ N →
      ((hasBadL xs = true → encodeElems xs = .error .unsupportedType)
        ∧ (hasBadL xs = false → ∃ bs, encodeElems xs = .ok bs)))
    ∧ (∀ es, esize es ≤ N →
      ((hasBadE es = true → encodeEntries es = .error .unsupportedType)
        ∧ (hasBadE es = false → ∃ ps, encodeEntries es = .ok ps))) := by
  intro N
  induction N with
  | zero =>
    refine ⟨fun v hv => absurd hv (by have := vsize_pos v; omega),
            fun xs hxs => absurd hxs (by have := lsize_pos xs; omega),
            fun es hes => absurd hes (by have := esize_pos es; omega)⟩
  | succ N ih =>
    obtain ⟨ihV, ihL, ihE⟩ := ih
    refine ⟨?_, ?_, ?_⟩
    · intro v hv
      cases v with
      | int n => exact ⟨(fun h => nomatch h), fun _ => ⟨_, rfl⟩⟩
      | bytes b => exact ⟨(fun h => nomatch h), fun _ => ⟨_, rfl⟩⟩
      | str s => exact ⟨(fun h => nomatch h), fun _ => ⟨_, rfl⟩⟩
      | list xs =>
        simp only [hasBad, vsize] at hv ⊢
        constructor
        · intro h
          have := (ihL xs (by omega)).1 h
          simp only [encodeObj, this]
        · intro h
          obtain ⟨bs, hbs⟩ := (ihL xs (by omega)).2 h
          exact ⟨108 :: (bs ++ [101]), by simp only [encodeObj, hbs]⟩
      | dict es =>
        simp only [hasBad, vsize] at hv ⊢
        constructor
        · intro h
          have := (ihE es (by omega)).1 h
          simp only [encodeObj, this]
        · intro h
          obtain ⟨ps, hps⟩ := (ihE es (by omega)).2 h
          exact ⟨100 :: (entriesPayload (sortEntries ps) ++ [101]), by simp only [encodeObj, hps]⟩
      | pynone => exact ⟨fun _ => rfl, fun h => nomatch h⟩
      | pybool b => exact ⟨fun _ => rfl, fun h => nomatch h⟩
      | pyfloat => exact ⟨fun _ => rfl, fun h => nomatch h⟩
      | pyother => exact ⟨fun _ => rfl, fun h => nomatch h⟩
    · intro xs hxs
      cases xs with
      | nil => exact ⟨(fun h => nomatch h), fun _ => ⟨_, rfl⟩⟩
      | cons x xs =>
        simp only [hasBadL, lsize, Bool.or_eq_true, Bool.or_eq_false_iff] at hxs ⊢
        constructor
        · intro h
          cases hx : hasBad x with
          | true =>
            have := (ihV x (by omega)).1 hx
            simp only [encodeElems, this]
          | false =>
            obtain ⟨bx, hbx⟩ := (ihV x (by omega)).2 hx
            have hxs' : hasBadL xs = true := by
              rcases h with h | h
              · rw [hx] at h; cases h
              · exact h
            have := (ihL xs (by omega)).1 hxs'
            simp only [encodeElems, hbx, this]
        · intro h
          obtain ⟨bx, hbx⟩ := (ihV x (by omega)).2 h.1
          obtain ⟨bs, hbs⟩ := (ihL xs (by omega)).2 h.2
          exact ⟨bx ++ bs, by simp only [encodeElems, hbx, hbs]⟩
    · intro es hes
      cases es with
      | nil => exact ⟨(fun h => nomatch h), fun _ => ⟨_, rfl⟩⟩
      | cons e es =>
        obtain ⟨k, v⟩ := e
        simp only [hasBadE, esize, Bool.or_eq_true, Bool.or_eq_false_iff] at hes ⊢
        constructor
        · intro h
          cases hk : isKeyOk k with
          | false =>
            have hkb : keyBytes k = .error .unsupportedType := by
              cases k <;> first | rfl | (simp [isKeyOk] at hk)
            simp only [encodeEntries, hkb]
          | true =>
            have hkb : ∃ kb, keyBytes k = .ok kb := by
              cases k <;> first | exact ⟨_, rfl⟩ | (simp [isKeyOk] at hk)
            obtain ⟨kb, hkb⟩ := hkb
            cases hv : hasBad v with
            | true =>
              have := (ihV v (by omega)).1 hv
              simp only [encodeEntries, hkb, this]
            | false =>
              obtain ⟨vb, hvb⟩ := (ihV v (by omega)).2 hv
              have hes' : hasBadE es = true := by
                rcases h with (h | h) | h
                · rw [hk] at h; cases h
                · rw [hv] at h; cases h
                · exact h
              have := (ihE es (by omega)).1 hes'
              simp only [encodeEntries, hkb, hvb, this]
        · intro h
          obtain ⟨⟨hk, hv⟩, hes'⟩ := h
          have hkb : ∃ kb, keyBytes k = .ok kb := by
            cases k <;> first | exact ⟨_, rfl⟩ | simp [isKeyOk] at hk
          obtain ⟨kb, hkb⟩ := hkb
          obtain ⟨vb, hvb⟩ := (ihV v (by omega)).2 hv
          obtain ⟨ps, hps⟩ := (ihE es (by omega)).2 hes'
          exact ⟨(kb, vb) :: ps, by simp only [encodeEntries, hkb, hvb, hps]⟩

theorem encodeObj_bad (v : BObj) (h : hasBad v = true) :
    encodeObj v = .error .unsupportedType :=
  ((encode_bad_all (vsize v)).1 v le_rfl).1 h

theorem encodeObj_good (v : BObj) (h : hasBad v = false) :
    ∃ bs, encodeObj v = .ok bs :=
  ((encode_bad_all (vsize v)).1 v le_rfl).2 h

/-! ## Every decoded value satisfies the key-selector rule -/

theorem parse_keysOk_all : ∀ fuel : Nat,
    (∀ d dk b (v : BObj) r, parseVal fuel d dk b = .ok (v, r) → keysOk dk v = true)
    ∧ (∀ d dk b (vs : List BObj) r, parseItems fuel d dk b = .ok (vs, r) →
        keysOkL dk vs = true)
    ∧ (∀ d dk seen b (es : List (BObj × BObj)) r,
        parseEntries fuel d dk seen b = .ok (es, r) → keysOkE dk es = true) := by
  intro fuel
  induction fuel with
  | zero =>
    refine ⟨fun d dk b v r h => Except.noConfusion h,
            fun d dk b vs r h => Except.noConfusion h,
            fun d dk seen b es r h => Except.noConfusion h⟩
  | succ fuel ih =>
    obtain ⟨ihV, ihI, ihE⟩ := ih
    refine ⟨?_, ?_, ?_⟩
    · intro d dk b v r h
      cases b with
      | nil => exact Except.noConfusion h
      | cons c t =>
        by_cases h105 : c = 105
        · subst h105
          rw [parseVal_i] at h
          cases hpi : parseIntBody t with
          | ok p =>
            obtain ⟨n, r2⟩ := p
            simp only [hpi] at h
            injection h with h1
            injection h1 with h2 h3
            subst h2
            rfl
          | error e =>
            simp only [hpi] at h
            exact Except.noConfusion h
        · by_cases h108 : c = 108
          · subst h108
            cases d with
            | zero => rw [parseVal_l0] at h; exact Except.noConfusion h
            | succ d2 =>
              rw [parseVal_l] at h
              cases hpi : parseItems fuel d2 dk t with
              | ok p =>
                obtain ⟨xs, r2⟩ := p
                simp only [hpi] at h
                injection h with h1
                injection h1 with h2 h3
                subst h2
                show keysOkL dk xs = true
                exact ihI d2 dk t xs r2 hpi
              | error e =>
                simp only [hpi] at h
                exact Except.noConfusion h
          · by_cases h100 : c = 100
            · subst h100
              cases d with
              | zero => rw [parseVal_d0] at h; exact Except.noConfusion h
              | succ d2 =>
                rw [parseVal_d] at h
                cases hpe : parseEntries fuel d2 dk [] t with
                | ok p =>
                  obtain ⟨es2, r2⟩ := p
                  simp only [hpe] at h
                  injection h with h1
                  injection h1 with h2 h3
                  subst h2
                  show keysOkE dk es2 = true
                  exact ihE d2 dk [] t es2 r2 hpe
                | error e =>
                  simp only [hpe] at h
                  exact Except.noConfusion h
            · by_cases hdig : isDigit c = true
              · have hcb : 48 ≤ c ∧ c ≤ 57 := by simpa [isDigit] using hdig
                rw [parseVal_str fuel d dk c t hcb.1 hcb.2] at h
                cases hps : parseStr (c :: t) with
                | ok p =>
                  obtain ⟨s, r2⟩ := p
                  simp only [hps] at h
                  injection h with h1
                  injection h1 with h2 h3
                  subst h2
                  rfl
                | error e =>
                  simp only [hps] at h
                  exact Except.noConfusion h
              · simp only [parseVal] at h
                rw [if_neg h105, if_neg h108, if_neg h100, if_neg hdig] at h
                exact Except.noConfusion h
    · intro d dk b vs r h
      cases b with
      | nil => exact Except.noConfusion h
      | cons c t =>
        by_cases h101 : c = 101
        · subst h101
          rw [parseItems_e] at h
          injection h with h1
          injection h1 with h2 h3
          rw [← h2]
          rfl
        · rw [parseItems_step fuel d dk c t h101] at h
          cases hv : parseVal fuel d dk (c :: t) with
          | error e =>
            simp only [hv] at h
            exact Except.noConfusion h
          | ok p =>
            obtain ⟨v1, r1⟩ := p
            simp only [hv] at h
            cases hi : parseItems fuel d dk r1 with
            | error e =>
              simp only [hi] at h
              exact Except.noConfusion h
            | ok p2 =>
              obtain ⟨vs2, r2⟩ := p2
              simp only [hi] at h
              injection h with h1
              injection h1 with h2 h3
              rw [← h2]
              simp only [keysOkL, Bool.and_eq_true]
              exact ⟨ihV d dk (c :: t) v1 r1 hv, ihI d dk r1 vs2 r2 hi⟩
    · intro d dk seen b es r h
      cases b with
      | nil => exact Except.noConfusion h
      | cons c t =>
        by_cases h101 : c = 101
        · subst h101
          rw [parseEntries_e] at h
          injection h with h1
          injection h1 with h2 h3
          rw [← h2]
          rfl
        · rw [parseEntries_step fuel d dk seen c t h101] at h
          cases hk : parseVal fuel d dk (c :: t) with
          | error e =>
            simp only [hk] at h
            exact Except.noConfusion h
          | ok p =>
            obtain ⟨kobj, r1⟩ := p
            simp only [hk] at h
            cases kobj with
            | bytes kraw =>
              simp only [] at h
              by_cases hmem : kraw ∈ seen
              · rw [if_pos hmem] at h
                exact Except.noConfusion h
              · rw [if_neg hmem] at h
                cases hv2 : parseVal fuel d dk r1 with
                | error e =>
                  simp only [hv2] at h
                  exact Except.noConfusion h
                | ok p2 =>
                  obtain ⟨v2, r2⟩ := p2
                  simp only [hv2] at h
                  cases he2 : parseEntries fuel d dk (kraw :: seen) r2 with
                  | error e =>
                    simp only [he2] at h
                    exact Except.noConfusion h
                  | ok p3 =>
                    obtain ⟨es3, r3⟩ := p3
                    simp only [he2] at h
                    injection h with h1
                    injection h1 with h2 h3
                    rw [← h2]
                    simp only [keysOkE, Bool.and_eq_true]
                    refine ⟨⟨?_, ihV d dk r1 v2 r2 hv2⟩,
                      ihE d dk (kraw :: seen) r2 es3 r3 he2⟩
                    by_cases hdk : kraw ∈ dk
                    · rw [if_pos hdk]
                      exact decide_eq_true hdk
                    · rw [if_neg hdk]
                      exact decide_eq_true hdk
            | int n => exact Except.noConfusion h
            | str s => exact Except.noConfusion h
            | list l => exact Except.noConfusion h
            | dict dd => exact Except.noConfusion h
            | pynone => exact Except.noConfusion h
            | pybool bb => exact Except.noConfusion h
            | pyfloat => exact Except.noConfusion h
            | pyother => exact Except.noConfusion h

theorem decode_keysOk (md : Nat) (dk : List Bytes) (b : Bytes) (v : BObj)
    (h : decode md dk b = .ok v) : keysOk dk v = true := by
  simp only [decode] at h
  cases hp : parseVal (2 * b.length + 1) md dk b with
  | error e => rw [hp] at h; exact Except.noConfusion h
  | ok p =>
    obtain ⟨w, rest⟩ := p
    rw [hp] at h
    cases rest with
    | nil =>
      injection h with h1
      rw [← h1]
      exact (parse_keysOk_all _).1 md dk b w [] hp
    | cons x xs => exact Except.noConfusion h

/-! ## Raising the depth limit never breaks a successful decode -/

theorem parse_depth_mono_all : ∀ fuel : Nat,
    (∀ d d' dk b (v : BObj) r, d ≤ d' → parseVal fuel d dk b = .ok (v, r) →
      parseVal fuel d' dk b = .ok (v, r))
    ∧ (∀ d d' dk b (vs : List BObj) r, d ≤ d' → parseItems fuel d dk b = .ok (vs, r) →
      parseItems fuel d' dk b = .ok (vs, r))
    ∧ (∀ d d' dk seen b (es : List (BObj × BObj)) r, d ≤ d' →
      parseEntries fuel d dk seen b = .ok (es, r) →
      parseEntries fuel d' dk seen b = .ok (es, r)) := by
  intro fuel
  induction fuel with
  | zero =>
    refine ⟨fun d d' dk b v r _ h => Except.noConfusion h,
            fun d d' dk b vs r _ h => Except.noConfusion h,
            fun d d' dk seen b es r _ h => Except.noConfusion h⟩
  | succ fuel ih =>
    obtain ⟨ihV, ihI, ihE⟩ := ih
    refine ⟨?_, ?_, ?_⟩
    · intro d d' dk b v r hdd h
      cases b with
      | nil => exact Except.noConfusion h
      | cons c t =>
        by_cases h105 : c = 105
        · subst h105
          rw [parseVal_i] at h ⊢
          exact h
        · by_cases h108 : c = 108
          · subst h108
            cases d with
            | zero => rw [parseVal_l0] at h; exact Except.noConfusion h
            | succ d2 =>
              cases d' with
              | zero => omega
              | succ d2' =>
                rw [parseVal_l] at h ⊢
                cases hpi : parseItems fuel d2 dk t with
                | error e => simp only [hpi] at h; exact Except.noConfusion h
                | ok p =>
                  obtain ⟨xs, r2⟩ := p
                  simp only [hpi] at h
                  rw [ihI d2 d2' dk t xs r2 (by omega) hpi]
                  exact h
          · by_cases h100 : c = 100
            · subst h100
              cases d with
              | zero => rw [parseVal_d0] at h; exact Except.noConfusion h
              | succ d2 =>
                cases d' with
                | zero => omega
                | succ d2' =>
                  rw [parseVal_d] at h ⊢
                  cases hpe : parseEntries fuel d2 dk [] t with
                  | error e => simp only [hpe] at h; exact Except.noConfusion h
                  | ok p =>
                    obtain ⟨es2, r2⟩ := p
                    simp only [hpe] at h
                    rw [ihE d2 d2' dk [] t es2 r2 (by omega) hpe]
                    exact h
            · by_cases hdig : isDigit c = true
              · have hcb : 48 ≤ c ∧ c ≤ 57 := by simpa [isDigit] using hdig
                rw [parseVal_str fuel d dk c t hcb.1 hcb.2] at h
                rw [parseVal_str fuel d' dk c t hcb.1 hcb.2]
                exact h
              · simp only [parseVal] at h
                rw [if_neg h105, if_neg h108, if_neg h100, if_neg hdig] at h
                exact Except.noConfusion h
    · intro d d' dk b vs r hdd h
      cases b with
      | nil => exact Except.noConfusion h
      | cons c t =>
        by_cases h101 : c = 101
        · subst h101
          rw [parseItems_e] at h ⊢
          exact h
        · rw [parseItems_step fuel d dk c t h101] at h
          rw [parseItems_step fuel d' dk c t h101]
          cases hv : parseVal fuel d dk (c :: t) with
          | error e => simp only [hv] at h; exact Except.noConfusion h
          | ok p =>
            obtain ⟨v1, r1⟩ := p
            simp only [hv] at h
            simp only [ihV d d' dk (c :: t) v1 r1 hdd hv]
            cases hi : parseItems fuel d dk r1 with
            | error e => simp only [hi] at h; exact Except.noConfusion h
            | ok p2 =>
              obtain ⟨vs2, r2⟩ := p2
              simp only [hi] at h
              simp only [ihI d d' dk r1 vs2 r2 hdd hi]
              exact h
    · intro d d' dk seen b es r hdd h
      cases b with
      | nil => exact Except.noConfusion h
      | cons c t =>
        by_cases h101 : c = 101
        · subst h101
          rw [parseEntries_e] at h ⊢
          exact h
        · rw [parseEntries_step fuel d dk seen c t h101] at h
          rw [parseEntries_step fuel d' dk seen c t h101]
          cases hk : parseVal fuel d dk (c :: t) with
          | error e => simp only [hk] at h; exact Except.noConfusion h
          | ok p =>
            obtain ⟨kobj, r1⟩ := p
            simp only [hk] at h
            simp only [ihV d d' dk (c :: t) kobj r1 hdd hk]
            cases kobj with
            | bytes kraw =>
              simp only [] at h ⊢
              by_cases hmem : kraw ∈ seen
              · rw [if_pos hmem] at h
                exact Except.noConfusion h
              · rw [if_neg hmem] at h ⊢
                cases hv2 : parseVal fuel d dk r1 with
                | error e => simp only [hv2] at h; exact Except.noConfusion h
                | ok p2 =>
                  obtain ⟨v2, r2⟩ := p2
                  simp only [hv2] at h
                  simp only [ihV d d' dk r1 v2 r2 hdd hv2]
                  cases he2 : parseEntries fuel d dk (kraw :: seen) r2 with
                  | error e => simp only [he2] at h; exact Except.noConfusion h
                  | ok p3 =>
                    obtain ⟨es3, r3⟩ := p3
                    simp only [he2] at h
                    simp only [ihE d d' dk (kraw :: seen) r2 es3 r3 hdd he2]
                    exact h
            | int n => exact Except.noConfusion h
            | str s => exact Except.noConfusion h
            | list l => exact Except.noConfusion h
            | dict dd2 => exact Except.noConfusion h
            | pynone => exact Except.noConfusion h
            | pybool bb => exact Except.noConfusion h
            | pyfloat => exact Except.noConfusion h
            | pyother => exact Except.noConfusion h

theorem decode_depth_mono (md md' : Nat) (dk : List Bytes) (b : Bytes) (v : BObj)
    (hdd : md ≤ md') (h : decode md dk b = .ok v) : decode md' dk b = .ok v := by
  simp only [decode] at h ⊢
  cases hp : parseVal (2 * b.length + 1) md dk b with
  | error e => rw [hp] at h; exact Except.noConfusion h
  | ok p =>
    obtain ⟨w, rest⟩ := p
    rw [hp] at h
    cases rest with
    | nil =>
      rw [(parse_depth_mono_all _).1 md md' dk b w [] hdd hp]
      exact h
    | cons x xs => exact Except.noConfusion h

/-! ## Nesting beyond the configured limit is rejected -/

theorem parse_deep :
    ∀ d fuel k : Nat, ∀ dk : List Bytes, ∀ rest : Bytes, d < k → 2 * d + 1 ≤ fuel →
      parseVal fuel d dk (List.replicate k 108 ++ rest) = .error .nestingTooDeep := by
  intro d
  induction d with
  | zero =>
    intro fuel k dk rest hk hf
    obtain ⟨f, rfl⟩ : ∃ f, fuel = f + 1 := ⟨fuel - 1, by omega⟩
    obtain ⟨k2, rfl⟩ : ∃ k2, k = k2 + 1 := ⟨k - 1, by omega⟩
    rw [List.replicate_succ, List.cons_append]
    exact parseVal_l0 f dk _
  | succ d ih =>
    intro fuel k dk rest hk hf
    obtain ⟨f, rfl⟩ : ∃ f, fuel = f + 2 := ⟨fuel - 2, by omega⟩
    obtain ⟨k2, rfl⟩ : ∃ k2, k = k2 + 1 := ⟨k - 1, by omega⟩
    rw [List.replicate_succ, List.cons_append]
    rw [show f + 2 = (f + 1) + 1 from rfl, parseVal_l]
    have hitems : parseItems (f + 1) d dk (List.replicate k2 108 ++ rest)
        = .error .nestingTooDeep := by
      obtain ⟨k3, rfl⟩ : ∃ k3, k2 = k3 + 1 := ⟨k2 - 1, by omega⟩
      rw [List.replicate_succ, List.cons_append,
        parseItems_step f d dk 108 _ (by omega)]
      have hval := ih f (k3 + 1) dk rest (by omega) (by omega)
      rw [List.replicate_succ, List.cons_append] at hval
      simp only [hval]
    simp only [hitems]

theorem decode_deep (md : Nat) (dk : List Bytes) (rest : Bytes) :
    decode md dk (List.replicate (md + 1) 108 ++ rest) = .error .nestingTooDeep := by
  have hp := parse_deep md (2 * (List.replicate (md + 1) 108 ++ rest).length + 1)
    (md + 1) dk rest (by omega)
    (by simp only [List.length_append, List.length_replicate]; omega)
  simp only [decode, hp]

/-! ## Dict encoding is independent of insertion order -/

theorem any_perm {α : Type} (p : α → Bool) {l1 l2 : List α} (h : l1.Perm l2) :
    l1.any p = l2.any p := by
  induction h with
  | nil => rfl
  | cons x _ ih => simp [List.any_cons, ih]
  | swap x y l => cases hx : p x <;> cases hy : p y <;> simp [List.any_cons, hx, hy]
  | trans _ _ ih1 ih2 => exact ih1.trans ih2

theorem hasBadE_any (es : List (BObj × BObj)) :
    hasBadE es = es.any (fun e => !isKeyOk e.1 || hasBad e.2) := by
  induction es with
  | nil => rfl
  | cons e es ih =>
    obtain ⟨k, v⟩ := e
    simp [hasBadE, ih, Bool.or_assoc]

theorem hasBadE_perm (es es' : List (BObj × BObj)) (h : es.Perm es') :
    hasBadE es = hasBadE es' := by
  rw [hasBadE_any, hasBadE_any]
  exact any_perm _ h

theorem keyBytes_rawKey (k : BObj) (kb : Bytes) (h : keyBytes k = .ok kb) :
    kb = rawKey k := by
  cases k with
  | bytes b => injection h with h1; exact h1.symm
  | str s => injection h with h1; exact h1.symm
  | int n => exact Except.noConfusion h
  | list l => exact Except.noConfusion h
  | dict d => exact Except.noConfusion h
  | pynone => exact Except.noConfusion h
  | pybool b => exact Except.noConfusion h
  | pyfloat => exact Except.noConfusion h
  | pyother => exact Except.noConfusion h

theorem encodeEntries_cons_ok (k v : BObj) (es : List (BObj × BObj))
    (ps : List (Bytes × Bytes)) (h : encodeEntries ((k, v) :: es) = .ok ps) :
    ∃ kb vb rest, keyBytes k = .ok kb ∧ encodeObj v = .ok vb
      ∧ encodeEntries es = .ok rest ∧ ps = (kb, vb) :: rest := by
  simp only [encodeEntries] at h
  cases hk : keyBytes k with
  | error e => rw [hk] at h; exact Except.noConfusion h
  | ok kb =>
    rw [hk] at h
    simp only [] at h
    cases hv : encodeObj v with
    | error e => rw [hv] at h; exact Except.noConfusion h
    | ok vb =>
      rw [hv] at h
      simp only [] at h
      cases he : encodeEntries es with
      | error e => rw [he] at h; exact Except.noConfusion h
      | ok rest =>
        rw [he] at h
        simp only [] at h
        injection h with h1
        exact ⟨kb, vb, rest, rfl, rfl, rfl, h1.symm⟩

theorem encodeEntriesPerm {es es' : List (BObj × BObj)} (hp : es.Perm es') :
    ∀ ps, encodeEntries es = .ok ps →
      ∃ ps', encodeEntries es' = .ok ps' ∧ ps.Perm ps' := by
  induction hp with
  | nil => exact fun ps h => ⟨ps, h, List.Perm.refl _⟩
  | cons x _ ih =>
    intro ps h
    obtain ⟨k, v⟩ := x
    obtain ⟨kb, vb, rest, hkb, hvb, hrest, hps⟩ := encodeEntries_cons_ok k v _ ps h
    obtain ⟨rest', hrest', hpr⟩ := ih rest hrest
    refine ⟨(kb, vb) :: rest', ?_, ?_⟩
    · simp only [encodeEntries, hkb, hvb, hrest']
    · rw [hps]
      exact hpr.cons _
  | swap x y l =>
    intro ps h
    obtain ⟨ky, vy⟩ := y
    obtain ⟨kx, vx⟩ := x
    obtain ⟨kby, vby, rest1, hkby, hvby, hrest1, hps1⟩ := encodeEntries_cons_ok ky vy _ ps h
    obtain ⟨kbx, vbx, rest2, hkbx, hvbx, hrest2, hps2⟩ :=
      encodeEntries_cons_ok kx vx _ rest1 hrest1
    refine ⟨(kbx, vbx) :: (kby, vby) :: rest2, ?_, ?_⟩
    · simp only [encodeEntries, hkbx, hvbx, hkby, hvby, hrest2]
    · rw [hps1, hps2]
      exact List.Perm.swap _ _ _
  | trans _ _ ih1 ih2 =>
    intro ps h
    obtain ⟨ps2, h2, hp2⟩ := ih1 ps h
    obtain ⟨ps3, h3, hp3⟩ := ih2 ps2 h2
    exact ⟨ps3, h3, hp2.trans hp3⟩

theorem encodeEntries_keys :
    ∀ (es : List (BObj × BObj)) ps, encodeEntries es = .ok ps →
      ps.map Prod.fst = es.map (fun e => rawKey e.1) := by
  intro es
  induction es with
  | nil =>
    intro ps h
    injection h with h1
    rw [← h1]
    rfl
  | cons e es ih =>
    intro ps h
    obtain ⟨k, v⟩ := e
    obtain ⟨kb, vb, rest, hkb, hvb, hrest, hps⟩ := encodeEntries_cons_ok k v _ ps h
    rw [hps]
    simp only [List.map_cons, ih rest hrest, keyBytes_rawKey k kb hkb]

theorem sorted_perm_eq :
    ∀ (l1 l2 : List (Bytes × Bytes)), l1.Perm l2 →
      List.Pairwise pairLe l1 → List.Pairwise pairLe l2 →
      (l1.map Prod.fst).Nodup → l1 = l2 := by
  intro l1
  induction l1 with
  | nil =>
    intro l2 hp _ _ _
    exact hp.nil_eq
  | cons p t1 ih =>
    intro l2 hp h1 h2 hnd
    cases l2 with
    | nil => exact absurd hp.symm.nil_eq (by simp)
    | cons q t2 =>
      have hpq : p = q := by
        have hp_mem : p ∈ q :: t2 := hp.mem_iff.mp (List.mem_cons_self p t1)
        rcases List.mem_cons.mp hp_mem with h | hpt2
        · exact h
        · have hle1 : pairLe q p := (List.pairwise_cons.mp h2).1 p hpt2
          have hq_mem : q ∈ p :: t1 := hp.mem_iff.mpr (List.mem_cons_self q t2)
          rcases List.mem_cons.mp hq_mem with h' | hqt1
          · exact h'.symm
          · have hle2 : pairLe p q := (List.pairwise_cons.mp h1).1 q hqt1
            have hkey : p.1 = q.1 := bytesLt_conn p.1 q.1 hle1 hle2
            exfalso
            have hmem : p.1 ∈ t1.map Prod.fst := List.mem_map.mpr ⟨q, hqt1, hkey.symm⟩
            simp only [List.map_cons] at hnd
            exact (List.nodup_cons.mp hnd).1 hmem
      subst hpq
      have htp : t1.Perm t2 := hp.cons_inv
      have hrec := ih t2 htp (List.pairwise_cons.mp h1).2 (List.pairwise_cons.mp h2).2
        (by simp only [List.map_cons] at hnd; exact (List.nodup_cons.mp hnd).2)
      rw [hrec]

theorem sortEntries_eq_of_perm (ps ps' : List (Bytes × Bytes)) (hperm : ps.Perm ps')
    (hnd : (ps.map Prod.fst).Nodup) : sortEntries ps = sortEntries ps' :=
  sorted_perm_eq (sortEntries ps) (sortEntries ps')
    ((sortEntries_perm ps).trans (hperm.trans (sortEntries_perm ps').symm))
    (sortEntries_pairwise ps) (sortEntries_pairwise ps')
    (((sortEntries_perm ps).map Prod.fst).nodup_iff.mpr hnd)

theorem encode_dict_perm (es es' : List (BObj × BObj)) (hperm : es.Perm es')
    (hnd : (es.map (fun e => rawKey e.1)).Nodup) :
    encodeObj (.dict es) = encodeObj (.dict es') := by
  cases hbad : hasBadE es with
  | true =>
    have hbad' : hasBadE es' = true := by
      rw [← hasBadE_perm es es' hperm]
      exact hbad
    have h1 := ((encode_bad_all (esize es)).2.2 es le_rfl).1 hbad
    have h2 := ((encode_bad_all (esize es')).2.2 es' le_rfl).1 hbad'
    simp only [encodeObj, h1, h2]
  | false =>
    obtain ⟨ps, hps⟩ := ((encode_bad_all (esize es)).2.2 es le_rfl).2 hbad
    obtain ⟨ps', hps', hpp⟩ := encodeEntriesPerm hperm ps hps
    have hkeys : ps.map Prod.fst = es.map (fun e => rawKey e.1) :=
      encodeEntries_keys es ps hps
    have hnd' : (ps.map Prod.fst).Nodup := by rw [hkeys]; exact hnd
    have hsort : sortEntries ps = sortEntries ps' := sortEntries_eq_of_perm ps ps' hpp hnd'
    simp only [encodeObj, hps, hps', hsort]

theorem sortEntries_keys_sorted (ps : List (Bytes × Bytes))
    (hnd : (ps.map Prod.fst).Nodup) :
    List.Pairwise (fun a b : Bytes => bytesLt a b = true) ((sortEntries ps).map Prod.fst) := by
  have hpw := sortEntries_pairwise ps
  have hnd' : ((sortEntries ps).map Prod.fst).Nodup :=
    (((sortEntries_perm ps).map Prod.fst).nodup_iff).mpr hnd
  rw [List.pairwise_map]
  rw [List.Nodup, List.pairwise_map] at hnd'
  refine (hpw.and hnd').imp ?_
  intro a b hab
  obtain ⟨hle, hne⟩ := hab
  cases hlt : bytesLt a.1 b.1 with
  | true => rfl
  | false => exact absurd (bytesLt_conn a.1 b.1 hlt hle) hne

/-! ## The claims -/

/-- C1: for every supported Value `v` whose dictionaries are built with
canonically-ordered (byte-wise ascending, unique ByteString) keys — and whose
nesting fits the configured depth limit — decoding the encoding of `v`
returns a value equal to `v`: `decode (encode v) = v`. -/
theorem c1_roundtrip (md : Nat) (v : BObj) (b : Bytes)
    (hc : canonicalV v = true) (hd : vdepth v ≤ md)
    (he : encodeObj v = .ok b) : decode md [] b = .ok v := by
  have hagree := encodeObj_canonical v hc
  rw [he] at hagree
  injection hagree with h1
  rw [h1]
  exact decode_encC md v hc hd

/-- Witness for C1 at a concrete two-key dict with a nested list. -/
theorem c1_roundtrip_witness :
    canonicalV (BObj.dict [(.bytes [97], .int 5), (.bytes [98], .list [.bytes []])]) = true
    ∧ decode 2 [] [100, 49, 58, 97, 105, 53, 101, 49, 58, 98, 108, 48, 58, 101, 101]
      = .ok (BObj.dict [(.bytes [97], .int 5), (.bytes [98], .list [.bytes []])]) :=
  ⟨rfl, c1_roundtrip 2 (BObj.dict [(.bytes [97], .int 5), (.bytes [98], .list [.bytes []])])
    [100, 49, 58, 97, 105, 53, 101, 49, 58, 98, 108, 48, 58, 101, 101]
    rfl (by decide) rfl⟩

/-- C2: for every well-formed canonical bencode buffer `b` — a buffer that
is the encoding of a supported canonical value within the depth limit —
re-encoding the decoded value reproduces the buffer exactly:
`encode (decode b) = b`. -/
theorem c2_canonical_idem (md : Nat) (v : BObj) (b : Bytes)
    (hc : canonicalV v = true) (hd : vdepth v ≤ md)
    (he : encodeObj v = .ok b) :
    ∃ w, decode md [] b = .ok w ∧ encodeObj w = .ok b := by
  have hagree := encodeObj_canonical v hc
  rw [he] at hagree
  injection hagree with h1
  refine ⟨v, ?_, he⟩
  rw [h1]
  exact decode_encC md v hc hd

/-- Witness for C2 at a concrete canonical buffer `l i-3e 1:x e`. -/
theorem c2_canonical_idem_witness :
    canonicalV (BObj.list [.int (-3), .bytes [120]]) = true
    ∧ ∃ w, decode 1 [] [108, 105, 45, 51, 101, 49, 58, 120, 101] = .ok w
        ∧ encodeObj w = .ok [108, 105, 45, 51, 101, 49, 58, 120, 101] :=
  ⟨rfl, c2_canonical_idem 1 (BObj.list [.int (-3), .bytes [120]])
    [108, 105, 45, 51, 101, 49, 58, 120, 101] rfl (by decide) (by rfl)⟩

/-- C3: encoding a dict emits its entries with keys sorted ascending by raw
byte value, independent of the caller's insertion order: the encoding is
invariant under permutation of the entries (for the unique keys a host dict
guarantees), the emitted entry sequence is the key-sorted one, and in
particular a dict inserted as `{"spam": eggs, "cow": moo}` encodes with the
`cow` entry before the `spam` entry. -/
theorem c3_dict_key_sorting :
    (∀ es es' : List (BObj × BObj), es.Perm es' →
      (es.map (fun e => rawKey e.1)).Nodup →
      encodeObj (.dict es) = encodeObj (.dict es'))
    ∧ (∀ (es : List (BObj × BObj)) (ps : List (Bytes × Bytes)),
      encodeEntries es = .ok ps → (es.map (fun e => rawKey e.1)).Nodup →
      encodeObj (.dict es) = .ok (100 :: (entriesPayload (sortEntries ps) ++ [101]))
      ∧ List.Pairwise (fun a b : Bytes => bytesLt a b = true)
          ((sortEntries ps).map Prod.fst))
    ∧ encodeObj (.dict [(.str [115, 112, 97, 109], .bytes [101, 103, 103, 115]),
        (.str [99, 111, 119], .bytes [109, 111, 111])])
      = .ok [100, 51, 58, 99, 111, 119, 51, 58, 109, 111, 111, 52, 58, 115, 112, 97, 109,
          52, 58, 101, 103, 103, 115, 101] := by
  refine ⟨encode_dict_perm, ?_, rfl⟩
  intro es ps hps hnd
  refine ⟨by simp only [encodeObj, hps], ?_⟩
  have hkeys := encodeEntries_keys es ps hps
  exact sortEntries_keys_sorted ps (by rw [hkeys]; exact hnd)

/-- Witness for C3: the spam/cow dict encodes identically in either
insertion order. -/
theorem c3_dict_key_sorting_witness :
    encodeObj (.dict [(.str [115, 112, 97, 109], .bytes [101, 103, 103, 115]),
        (.str [99, 111, 119], .bytes [109, 111, 111])])
      = encodeObj (.dict [(.str [99, 111, 119], .bytes [109, 111, 111]),
        (.str [115, 112, 97, 109], .bytes [101, 103, 103, 115])]) :=
  c3_dict_key_sorting.1 _ _ (List.Perm.swap _ _ _) (by decide)

/-- C4: each of `i01e`, `i-0e`, `01:q`, `1a2:qwer`, `a` fails `decode` with
the corresponding `DecodeError` (integer leading zero, negative zero,
string-length leading zero, non-digit in the length prefix, unknown type
tag), at every configured depth limit; no partial value is returned. -/
theorem c4_rejections : ∀ md : Nat,
    decode md [] [105, 48, 49, 101] = .error .invalidInteger
    ∧ decode md [] [105, 45, 48, 101] = .error .invalidInteger
    ∧ decode md [] [48, 49, 58, 113] = .error .invalidLengthPrefix
    ∧ decode md [] [49, 97, 50, 58, 113, 119, 101, 114] = .error .invalidLengthPrefix
    ∧ decode md [] [97] = .error .unknownTypeTag :=
  fun _ => ⟨rfl, rfl, rfl, rfl, rfl⟩

/-- Witness for C4 at depth limit 0. -/
theorem c4_rejections_witness :
    decode 0 [] [97] = .error .unknownTypeTag :=
  (c4_rejections 0).2.2.2.2

/-- C5: integers of magnitude beyond the 64-bit native range round-trip
exactly through encode and decode (the model accumulates digits in
arbitrary-precision arithmetic); in particular
`decode "i9223372036854775808e" = 2 ^ 63` and
`decode "i18446744073709551616e" = 2 ^ 64`. -/
theorem c5_bigint :
    (∀ (md : Nat) (n : Int) (b : Bytes), 18446744073709551616 < n.natAbs →
      encodeObj (.int n) = .ok b → decode md [] b = .ok (.int n))
    ∧ decode 0 [] [105, 57, 50, 50, 51, 51, 55, 50, 48, 51, 54, 56, 53, 52, 55, 55, 53,
        56, 48, 56, 101] = .ok (.int 9223372036854775808)
    ∧ decode 0 [] [105, 49, 56, 52, 52, 54, 55, 52, 52, 48, 55, 51, 55, 48, 57, 53, 53,
        49, 54, 49, 54, 101] = .ok (.int 18446744073709551616) := by
  refine ⟨?_, rfl, rfl⟩
  intro md n b _ he
  have hagree := encodeObj_canonical (.int n) rfl
  rw [he] at hagree
  injection hagree with h1
  rw [h1]
  exact decode_encC md (.int n) rfl (by simp [vdepth])

/-- Witness for C5 at `2 ^ 65`. -/
theorem c5_bigint_witness :
    18446744073709551616 < ((36893488147419103232 : Int)).natAbs
    ∧ decode 0 [] (encInt 36893488147419103232) = .ok (.int 36893488147419103232) :=
  ⟨by decide, c5_bigint.1 0 36893488147419103232 (encInt 36893488147419103232)
    (by decide) rfl⟩

/-- C6: every input tree containing a leaf or container the codec does not
support (None, booleans, floats, opaque objects, or a non-ByteString dict
key, anywhere in the tree) fails `encode` with the type-error-class
`EncodeError`; in particular `encode [1, 2, "a", b"b", None]` fails. -/
theorem c6_unsupported :
    (∀ v : BObj, hasBad v = true → encodeObj v = .error .unsupportedType)
    ∧ encodeObj (.list [.int 1, .int 2, .str [97], .bytes [98], .pynone])
      = .error .unsupportedType :=
  ⟨encodeObj_bad, rfl⟩

/-- Witness for C6 at a list containing a boolean. -/
theorem c6_unsupported_witness :
    hasBad (BObj.list [.pybool true]) = true
    ∧ encodeObj (BObj.list [.pybool true]) = .error .unsupportedType :=
  ⟨rfl, c6_unsupported.1 (BObj.list [.pybool true]) rfl⟩

/-- C7: under the `decode_keys` option, at every nesting level every dict
key whose raw bytes are in the set is materialized as text and every other
key stays a raw ByteString; and on
`encode {"key": "value", "other": {"key": [1, 2, 3]}}` with
`decode_keys = {b"key"}`, the decoded top level has text key `"key"` and raw
key `b"other"`, and the nested dict again has text key `"key"`. -/
theorem c7_decode_keys :
    (∀ (md : Nat) (dk : List Bytes) (b : Bytes) (v : BObj),
      decode md dk b = .ok v → keysOk dk v = true)
    ∧ encodeObj (.dict [(.str [107, 101, 121], .str [118, 97, 108, 117, 101]),
        (.str [111, 116, 104, 101, 114], .dict [(.str [107, 101, 121],
          .list [.int 1, .int 2, .int 3])])])
      = .ok [100, 51, 58, 107, 101, 121, 53, 58, 118, 97, 108, 117, 101,
          53, 58, 111, 116, 104, 101, 114, 100, 51, 58, 107, 101, 121,
          108, 105, 49, 101, 105, 50, 101, 105, 51, 101, 101, 101, 101]
    ∧ decode 3 [[107, 101, 121]]
        [100, 51, 58, 107, 101, 121, 53, 58, 118, 97, 108, 117, 101,
         53, 58, 111, 116, 104, 101, 114, 100, 51, 58, 107, 101, 121,
         108, 105, 49, 101, 105, 50, 101, 105, 51, 101, 101, 101, 101]
      = .ok (.dict [(.str [107, 101, 121], .bytes [118, 97, 108, 117, 101]),
          (.bytes [111, 116, 104, 101, 114], .dict [(.str [107, 101, 121],
            .list [.int 1, .int 2, .int 3])])]) :=
  ⟨decode_keysOk, rfl, rfl⟩

/-- Witness for C7 at `d3:keyi1ee` with `decode_keys = {b"key"}`. -/
theorem c7_decode_keys_witness :
    decode 1 [[107, 101, 121]] [100, 51, 58, 107, 101, 121, 105, 49, 101, 101]
      = .ok (.dict [(.str [107, 101, 121], .int 1)])
    ∧ keysOk [[107, 101, 121]] (.dict [(.str [107, 101, 121], .int 1)]) = true :=
  ⟨rfl, c7_decode_keys.1 1 [[107, 101, 121]]
    [100, 51, 58, 107, 101, 121, 105, 49, 101, 101]
    (.dict [(.str [107, 101, 121], .int 1)]) rfl⟩

/-- C8: `decode` parses exactly one top-level value: whenever the parser
leaves unconsumed bytes, `decode` fails with `TrailingData`, and whenever
`decode` succeeds the parser consumed the entire buffer. -/
theorem c8_trailing :
    ∀ (md : Nat) (dk : List Bytes) (b : Bytes),
      (∀ (v : BObj) rest, parseVal (2 * b.length + 1) md dk b = .ok (v, rest) →
        rest ≠ [] → decode md dk b = .error .trailingData)
      ∧ (∀ w, decode md dk b = .ok w →
          parseVal (2 * b.length + 1) md dk b = .ok (w, [])) := by
  intro md dk b
  constructor
  · intro v rest hp hne
    simp only [decode, hp]
    cases rest with
    | nil => exact absurd rfl hne
    | cons x xs => rfl
  · intro w hw
    simp only [decode] at hw
    cases hp : parseVal (2 * b.length + 1) md dk b with
    | error e => rw [hp] at hw; exact Except.noConfusion hw
    | ok p =>
      obtain ⟨v, rest⟩ := p
      rw [hp] at hw
      cases rest with
      | nil =>
        injection hw with h1
        rw [← h1]
      | cons x xs => exact Except.noConfusion hw

/-- Witness for C8 at `i0e` followed by one stray byte. -/
theorem c8_trailing_witness :
    parseVal (2 * (List.length ([105, 48, 101, 105] : Bytes)) + 1) 0 [] [105, 48, 101, 105]
      = .ok (.int 0, [105])
    ∧ decode 0 [] [105, 48, 101, 105] = .error .trailingData :=
  ⟨rfl, (c8_trailing 0 [] [105, 48, 101, 105]).1 (.int 0) [105] rfl (by decide)⟩

/-- C9: nesting deeper than the configured maximum fails with the distinct
`NestingTooDeep` error (here: any input opening `maxDepth + 1` lists), while
inputs within the limit are unaffected by the guard: raising the limit never
changes a successful decode. -/
theorem c9_depth :
    (∀ (md : Nat) (dk : List Bytes) (rest : Bytes),
      decode md dk (List.replicate (md + 1) 108 ++ rest) = .error .nestingTooDeep)
    ∧ (∀ (md md' : Nat) (dk : List Bytes) (b : Bytes) (v : BObj), md ≤ md' →
      decode md dk b = .ok v → decode md' dk b = .ok v) :=
  ⟨decode_deep, fun md md' dk b v => decode_depth_mono md md' dk b v⟩

/-- Witness for C9: `ll` overflows limit 1, and a decode at limit 0 still
succeeds at limit 1. -/
theorem c9_depth_witness :
    decode 1 [] (List.replicate 2 108 ++ []) = .error .nestingTooDeep
    ∧ decode 0 [] [105, 52, 101] = .ok (.int 4)
    ∧ decode 1 [] [105, 52, 101] = .ok (.int 4) :=
  ⟨c9_depth.1 1 [] [], rfl,
    c9_depth.2 0 1 [] [105, 52, 101] (.int 4) (Nat.zero_le 1) rfl⟩

/-- C10: empty byte strings are fully supported: `decode "0:"` is the empty
ByteString, and an empty ByteString is accepted as a dict key, so
`decode "d0:4:spam3:fooi42ee" = {b"": b"spam", b"foo": 42}`. -/
theorem c10_empty_bytestring :
    (∀ md : Nat, decode md [] [48, 58] = .ok (.bytes []))
    ∧ (∀ md : Nat,
      decode (md + 1) []
        [100, 48, 58, 52, 58, 115, 112, 97, 109, 51, 58, 102, 111, 111, 105, 52, 50,
         101, 101]
      = .ok (.dict [(.bytes [], .bytes [115, 112, 97, 109]),
          (.bytes [102, 111, 111], .int 42)])) :=
  ⟨fun _ => rfl, fun _ => rfl⟩

/-- Witness for C10 at depth limits 0 and 1. -/
theorem c10_empty_bytestring_witness :
    decode 0 [] [48, 58] = .ok (.bytes [])
    ∧ decode 1 []
        [100, 48, 58, 52, 58, 115, 112, 97, 109, 51, 58, 102, 111, 111, 105, 52, 50,
         101, 101]
      = .ok (.dict [(.bytes [], .bytes [115, 112, 97, 109]),
          (.bytes [102, 111, 111], .int 42)]) :=
  ⟨c10_empty_bytestring.1 0, c10_empty_bytestring.2 0⟩

end Bencode
